import Mathlib

/-!
# Verification of `find_all_shortest_paths` (src/main.rs)

Shallow embedding of the Rust program that enumerates all shortest paths
between two labeled cells of a grid, together with proofs of the
specification's claims about it.

Conventions of the embedding:
* `usize` values (row/column indices, levels) are modelled as `Nat`;
  the `as isize` casts used for the neighbour bounds check are modelled as `Int`.
* `i32` cell labels are modelled as `Int` (they are only compared for equality).
* The `HashMap<(usize,usize), usize>` distance map is modelled as an
  association list with insert-replaces-value semantics.
* `VecDeque` is modelled as a `List` (pop at the head, push at the back).
* The `usize::MAX` sentinel initial value of `shortest_distance` is modelled
  as `none : Option Nat`; comparisons against it are translated accordingly
  (`level < usize::MAX` holds for every reachable level, `level > usize::MAX`
  never holds).
* The `while let` loop is modelled as a fuel-indexed iteration; the fuel
  `5 ^ (rows * cols + 1)` is proved sufficient below
  (`bfs_loop_fuel_empties_queue`), so the fuelled function computes the
  loop's actual final state.
-/

/-- A `(row, column)` position, both 0-indexed (`(usize, usize)` in the source). -/
abbrev Pos : Type := Nat × Nat

/-- A queue entry of the BFS: `(position, path_string, level)`. -/
abbrev Entry : Type := Pos × List Char × Nat

/-- The grid: a vector of rows of `i32` labels. -/
abbrev Grid : Type := List (List Int)

/-- Lookup in the association-list model of the distance `HashMap`. -/
def lookupD : List (Pos × Nat) → Pos → Option Nat
  | [], _ => none
  | kv :: m, k => if kv.1 = k then some kv.2 else lookupD m k

/-- Insert in the association-list model of the distance `HashMap`:
replaces the value if the key is present, otherwise adds the pair. -/
def insertD : List (Pos × Nat) → Pos → Nat → List (Pos × Nat)
  | [], k, v => [(k, v)]
  | kv :: m, k, v => if kv.1 = k then (k, v) :: m else kv :: insertD m k v

/-- The BFS state: the queue, the distance map, the accumulated result list
`shortest_paths` and the best distance `shortest_distance` seen so far
(`none` models the initial `usize::MAX`). -/
structure St : Type where
  queue : List Entry
  distance : List (Pos × Nat)
  shortest_paths : List (List Char)
  shortest_distance : Option Nat
deriving DecidableEq

/-- `level > shortest_distance` of the source, on the `Option Nat` model. -/
def exceeds : Option Nat → Nat → Bool
  | some d, l => decide (d < l)
  | none, _ => false

/-- The bounds-checked neighbour computation of the source: from `p`, move by
the `(isize, isize)` delta `d`; `some` exactly when
`0 <= new_row < rows && 0 <= new_col < cols`. -/
def childAt (rows cols : Nat) (p : Pos) (d : Int × Int) : Option Pos :=
  if 0 ≤ (p.1 : Int) + d.1 ∧ (p.1 : Int) + d.1 < (rows : Int) ∧
     0 ≤ (p.2 : Int) + d.2 ∧ (p.2 : Int) + d.2 < (cols : Int) then
    some (((p.1 : Int) + d.1).toNat, ((p.2 : Int) + d.2).toNat)
  else
    none

/-- The movement table of the source: right, down, left, up, with the
direction characters `>`, `v`, `<`, `^`. -/
def dirList : List (Int × Int × Char) :=
  [(0, 1, '>'), (1, 0, 'v'), (0, -1, '<'), (-1, 0, '^')]

/-- One direction of the `for (dir_idx, &(dr, dc)) in directions` loop body:
if the new position is in bounds and is unseen or seen at the same level,
record its distance and enqueue it with the extended path. -/
def tryDir (rows cols : Nat) (cur : Pos) (path : List Char) (level : Nat)
    (d : Int × Int × Char) (s : St) : St :=
  match childAt rows cols cur (d.1, d.2.1) with
  | none => s
  | some np =>
    match lookupD s.distance np with
    | none =>
      { s with distance := insertD s.distance np (level + 1),
               queue := s.queue ++ [(np, path ++ [d.2.2], level + 1)] }
    | some v =>
      if v = level + 1 then
        { s with distance := insertD s.distance np (level + 1),
                 queue := s.queue ++ [(np, path ++ [d.2.2], level + 1)] }
      else s

/-- The directions loop, iterated over a direction list. -/
def expandDirs (rows cols : Nat) (cur : Pos) (path : List Char) (level : Nat) :
    List (Int × Int × Char) → St → St
  | [], s => s
  | d :: ds, s => expandDirs rows cols cur path level ds (tryDir rows cols cur path level d s)

/-- Explore all four directions from the dequeued entry. -/
def expand (rows cols : Nat) (cur : Pos) (path : List Char) (level : Nat) (s : St) : St :=
  expandDirs rows cols cur path level dirList s

/-- The body of the `while let` loop for one dequeued entry
`(cur, path, level)`, acting on the state whose queue is the rest. -/
def bfsStep (rows cols : Nat) (endp : Pos) (cur : Pos) (path : List Char) (level : Nat)
    (s : St) : St :=
  if s.shortest_paths ≠ [] ∧ exceeds s.shortest_distance level then s
  else if cur = endp then
    match s.shortest_distance with
    | none => { s with shortest_paths := [path], shortest_distance := some level }
    | some d =>
      if level < d then { s with shortest_paths := [path], shortest_distance := some level }
      else if level = d then { s with shortest_paths := s.shortest_paths ++ [path] }
      else s
  else expand rows cols cur path level s

/-- The `while let Some((current, path, level)) = queue.pop_front()` loop,
with fuel. Once the queue is empty the state is final. -/
def bfsLoop (rows cols : Nat) (endp : Pos) : Nat → St → St
  | 0, s => s
  | n + 1, s =>
    match s.queue with
    | [] => s
    | (cur, path, level) :: rest =>
      bfsLoop rows cols endp n (bfsStep rows cols endp cur path level { s with queue := rest })

/-- The initial BFS state: the start entry with the empty path at level 0,
and `distance.insert(start, 0)`. -/
def bfsInit (start : Pos) : St :=
  { queue := [(start, [], 0)], distance := [(start, 0)],
    shortest_paths := [], shortest_distance := none }

/-- Fuel that is provably enough iterations for the BFS loop to empty its
queue (theorem `bfs_loop_fuel_empties_queue`). -/
def bfsFuel (rows cols : Nat) : Nat := 5 ^ (rows * cols + 1)

/-- The number of columns used by the BFS:
`if rows > 0 { grid[0].len() } else { 0 }`. -/
def gridCols (grid : Grid) : Nat :=
  match grid with
  | [] => 0
  | r :: _ => r.length

/-- `bfs_shortest_paths`: all shortest paths from `start` to `endp` by
level-tracking BFS, as lists of direction characters. -/
def bfs_shortest_paths (grid : Grid) (start endp : Pos) : List (List Char) :=
  let rows := grid.length
  let cols := gridCols grid
  (bfsLoop rows cols endp (bfsFuel rows cols) (bfsInit start)).shortest_paths

/-- The row-major list of `(row, col, value)` cells of one row, starting at
column `c`. -/
def rowCells (r : Nat) : Nat → List Int → List (Nat × Nat × Int)
  | _, [] => []
  | c, v :: vs => (r, c, v) :: rowCells r (c + 1) vs

/-- The row-major list of `(row, col, value)` cells of the grid, starting at
row `r`. -/
def gridCellsFrom : Nat → Grid → List (Nat × Nat × Int)
  | _, [] => []
  | r, row :: rest => rowCells r 0 row ++ gridCellsFrom (r + 1) rest

/-- All `(row, col, value)` cells of the grid in row-major order, as visited
by the `grid.iter().enumerate()` double loop of the source. -/
def gridCells (grid : Grid) : List (Nat × Nat × Int) := gridCellsFrom 0 grid

/-- One cell of the position-resolution scan:
`if value == start_number { start_pos = ... } else if value == end_number
{ end_pos = ... }`. -/
def resolveStep (start_number end_number : Int) (acc : Option Pos × Option Pos)
    (cell : Nat × Nat × Int) : Option Pos × Option Pos :=
  if cell.2.2 = start_number then (some (cell.1, cell.2.1), acc.2)
  else if cell.2.2 = end_number then (acc.1, some (cell.1, cell.2.1))
  else acc

/-- The position-resolution scan of `find_all_shortest_paths`, over all cells
in row-major order starting from `(None, None)`. -/
def resolvePositions (grid : Grid) (start_number end_number : Int) :
    Option Pos × Option Pos :=
  (gridCells grid).foldl (resolveStep start_number end_number) (none, none)

/-- `find_all_shortest_paths`: resolve both labels, return `[]` if either is
unresolved, otherwise run the BFS between the two positions. -/
def find_all_shortest_paths (grid : Grid) (start_number end_number : Int) :
    List (List Char) :=
  match resolvePositions grid start_number end_number with
  | (some ps, some pe) => bfs_shortest_paths grid ps pe
  | _ => []

/-- The grid Manhattan distance between two positions,
`|p.1 - q.1| + |p.2 - q.2|` written with truncated `Nat` subtraction. -/
def manhattan (p q : Pos) : Nat :=
  ((p.1 - q.1) + (q.1 - p.1)) + ((p.2 - q.2) + (q.2 - p.2))

/-- A position as a pair of integers. -/
def posZ (p : Pos) : Int × Int := ((p.1 : Int), (p.2 : Int))

/-- The `(row, column)` displacement denoted by one direction character. -/
def moveDelta (c : Char) : Int × Int :=
  if c = '>' then (0, 1)
  else if c = 'v' then (1, 0)
  else if c = '<' then (0, -1)
  else if c = '^' then (-1, 0)
  else (0, 0)

/-- Apply the moves of a path in order starting from `p`, over `Int`
coordinates. -/
def walkZ (p : Pos) (path : List Char) : Int × Int :=
  path.foldl (fun z c => (z.1 + (moveDelta c).1, z.2 + (moveDelta c).2)) (posZ p)

/-- Modelled from the spec: "Scans the grid in row-major order; returns the
position of the first cell matching `label`" — the first row-major
occurrence, for comparison with the code's resolution scan. -/
def locateFirst (grid : Grid) (label : Int) : Option Pos :=
  ((gridCells grid).find? (fun cell => cell.2.2 == label)).map (fun cell => (cell.1, cell.2.1))

/-- The last row-major occurrence of a label, for the amended description of
the code's resolution scan. -/
def locateLast (grid : Grid) (label : Int) : Option Pos :=
  ((gridCells grid).reverse.find? (fun cell => cell.2.2 == label)).map
    (fun cell => (cell.1, cell.2.1))

/-- The label occurs in no cell of the grid. -/
def labelAbsent (grid : Grid) (label : Int) : Prop :=
  ∀ cell ∈ gridCells grid, cell.2.2 ≠ label

/-- The label occurs exactly once in the grid, namely at position `p`. -/
def uniqueAt (grid : Grid) (label : Int) (p : Pos) : Prop :=
  (gridCells grid).filter (fun cell => cell.2.2 == label) = [(p.1, p.2, label)]

/-- All rows of the grid have the length of the first row. -/
def Rectangular (grid : Grid) : Prop :=
  ∀ row ∈ grid, row.length = gridCols grid

/-! ## Basic properties of the fuelled loop -/

theorem bfsLoop_queue_nil {rows cols : Nat} {endp : Pos} {s : St} (h : s.queue = [])
    (n : Nat) : bfsLoop rows cols endp n s = s := by
  cases n with
  | zero => rfl
  | succ n => simp [bfsLoop, h]

theorem bfsLoop_add (rows cols : Nat) (endp : Pos) (a b : Nat) (s : St) :
    bfsLoop rows cols endp (a + b) s =
      bfsLoop rows cols endp b (bfsLoop rows cols endp a s) := by
  induction a generalizing s with
  | zero => rw [Nat.zero_add]; rfl
  | succ a ih =>
    cases hq : s.queue with
    | nil =>
      rw [bfsLoop_queue_nil hq, bfsLoop_queue_nil hq, bfsLoop_queue_nil hq]
    | cons e rest =>
      obtain ⟨cur, path, level⟩ := e
      have hL : a + 1 + b = (a + b) + 1 := by omega
      rw [hL]
      simp only [bfsLoop, hq]
      exact ih _

theorem bfsLoop_stable {rows cols : Nat} {endp : Pos} {s : St} {n : Nat}
    (h : (bfsLoop rows cols endp n s).queue = []) {m : Nat} (hm : n ≤ m) :
    bfsLoop rows cols endp m s = bfsLoop rows cols endp n s := by
  obtain ⟨k, rfl⟩ := Nat.exists_eq_add_of_le hm
  rw [bfsLoop_add, bfsLoop_queue_nil h]

/-! ## Concrete claim theorems -/

/-- C1: the claim says that when the start label equals the end label (and is
present) the result is a single empty path. The code instead returns the
empty collection: the resolution scan's `else if` never assigns the end
position when the labels are equal. The BFS phase itself, given equal start
and end positions, does produce the single empty path, which shows the
discrepancy is a slip in the resolution scan. -/
theorem c1_equal_labels_empty_result :
    find_all_shortest_paths [[1, 2], [3, 4]] 1 1 = [] ∧
    bfs_shortest_paths [[1, 2], [3, 4]] (0, 0) (0, 0) = [[]] := by
  exact ⟨rfl, rfl⟩

/-- C2 counterexample: on the 3×3 grid with start 1 and end 9 the result does
not have exactly 2 paths (it has 6). -/
theorem c2_counterexample :
    (find_all_shortest_paths [[1, 2, 3], [4, 5, 6], [7, 8, 9]] 1 9).length ≠ 2 := by
  decide

/-- C2 amended: on the 3×3 grid `[[1,2,3],[4,5,6],[7,8,9]]` with start 1 and
end 9 the result has exactly 6 paths, all of length 4, and as a set it is
the set of all six interleavings of two `>` moves and two `v` moves. -/
theorem c2_amended_six_paths :
    (find_all_shortest_paths [[1, 2, 3], [4, 5, 6], [7, 8, 9]] 1 9).length = 6 ∧
    (∀ p ∈ find_all_shortest_paths [[1, 2, 3], [4, 5, 6], [7, 8, 9]] 1 9, p.length = 4) ∧
    (find_all_shortest_paths [[1, 2, 3], [4, 5, 6], [7, 8, 9]] 1 9).toFinset =
      {['>', '>', 'v', 'v'], ['>', 'v', '>', 'v'], ['>', 'v', 'v', '>'],
       ['v', '>', '>', 'v'], ['v', '>', 'v', '>'], ['v', 'v', '>', '>']} := by
  refine ⟨by decide, by decide, by decide⟩

/-- C5 counterexample: on `[[1,1,9]]` the resolution step of
`find_all_shortest_paths` resolves label 1 to `(0,1)`, not to the first
row-major occurrence `(0,0)`; the returned path set shows the difference. -/
theorem c5_counterexample :
    (resolvePositions [[1, 1, 9]] 1 9).1 = some (0, 1) ∧
    locateFirst [[1, 1, 9]] 1 = some (0, 0) ∧
    find_all_shortest_paths [[1, 1, 9]] 1 9 = [['>']] := by
  refine ⟨rfl, rfl, by decide⟩

/-- C7: on the empty grid (zero rows) the result is the empty collection for
any pair of labels. -/
theorem c7_empty_grid (start_number end_number : Int) :
    find_all_shortest_paths [] start_number end_number = [] := rfl

/-! ## The resolution scan: last-occurrence and absence lemmas -/

theorem find?_eq_head?_filter {α : Type} (p : α → Bool) (l : List α) :
    l.find? p = (l.filter p).head? := by
  induction l with
  | nil => rfl
  | cons x t ih =>
    by_cases h : p x
    · rw [List.find?_cons_of_pos _ h, List.filter_cons_of_pos h, List.head?_cons]
    · rw [List.find?_cons_of_neg _ h, List.filter_cons_of_neg h, ih]

theorem resolve_foldl_fst (s e : Int) (cs : List (Nat × Nat × Int))
    (a : Option Pos × Option Pos) :
    (cs.foldl (resolveStep s e) a).1 =
      match cs.reverse.find? (fun c => c.2.2 == s) with
      | some c => some (c.1, c.2.1)
      | none => a.1 := by
  induction cs generalizing a with
  | nil => rfl
  | cons c t ih =>
    simp only [List.foldl_cons, List.reverse_cons, List.find?_append, ih]
    cases hf : t.reverse.find? (fun c => c.2.2 == s) with
    | some x => rfl
    | none =>
      simp only [Option.none_or, List.find?_cons, List.find?_nil]
      by_cases h : c.2.2 = s
      · rw [show ((c.2.2 == s) = true) from by simpa using h]
        simp only [resolveStep, if_pos h]
      · rw [show ((c.2.2 == s) = false) from by simpa using h]
        simp only [resolveStep, if_neg h]
        by_cases h2 : c.2.2 = e
        · rw [if_pos h2]
        · rw [if_neg h2]

theorem resolve_foldl_snd (s e : Int) (hne : s ≠ e) (cs : List (Nat × Nat × Int))
    (a : Option Pos × Option Pos) :
    (cs.foldl (resolveStep s e) a).2 =
      match cs.reverse.find? (fun c => c.2.2 == e) with
      | some c => some (c.1, c.2.1)
      | none => a.2 := by
  induction cs generalizing a with
  | nil => rfl
  | cons c t ih =>
    simp only [List.foldl_cons, List.reverse_cons, List.find?_append, ih]
    cases hf : t.reverse.find? (fun c => c.2.2 == e) with
    | some x => rfl
    | none =>
      simp only [Option.none_or, List.find?_cons, List.find?_nil]
      by_cases h : c.2.2 = e
      · have hs : ¬ c.2.2 = s := by rw [h]; exact fun hc => hne hc.symm
        rw [show ((c.2.2 == e) = true) from by simpa using h]
        simp only [resolveStep, if_neg hs, if_pos h]
      · rw [show ((c.2.2 == e) = false) from by simpa using h]
        simp only [resolveStep]
        by_cases h2 : c.2.2 = s
        · rw [if_pos h2]
        · rw [if_neg h2, if_neg h]

theorem resolve_foldl_fst_absent (s e : Int) (cs : List (Nat × Nat × Int))
    (a : Option Pos × Option Pos) (h : ∀ c ∈ cs, c.2.2 ≠ s) :
    (cs.foldl (resolveStep s e) a).1 = a.1 := by
  induction cs generalizing a with
  | nil => rfl
  | cons c t ih =>
    have hc : c.2.2 ≠ s := h c (List.mem_cons_self c t)
    have ht : ∀ c ∈ t, c.2.2 ≠ s := fun x hx => h x (List.mem_cons_of_mem c hx)
    rw [List.foldl_cons, ih _ ht]
    simp only [resolveStep, if_neg hc]
    by_cases h2 : c.2.2 = e
    · rw [if_pos h2]
    · rw [if_neg h2]

theorem resolve_foldl_snd_absent (s e : Int) (cs : List (Nat × Nat × Int))
    (a : Option Pos × Option Pos) (h : ∀ c ∈ cs, c.2.2 ≠ e) :
    (cs.foldl (resolveStep s e) a).2 = a.2 := by
  induction cs generalizing a with
  | nil => rfl
  | cons c t ih =>
    have hc : c.2.2 ≠ e := h c (List.mem_cons_self c t)
    have ht : ∀ c ∈ t, c.2.2 ≠ e := fun x hx => h x (List.mem_cons_of_mem c hx)
    rw [List.foldl_cons, ih _ ht]
    simp only [resolveStep]
    by_cases h2 : c.2.2 = s
    · rw [if_pos h2]
    · rw [if_neg h2, if_neg hc]

theorem resolvePositions_eq_locateLast (grid : Grid) (s e : Int) (hne : s ≠ e) :
    resolvePositions grid s e = (locateLast grid s, locateLast grid e) := by
  unfold resolvePositions locateLast
  refine Prod.ext ?_ ?_
  · rw [resolve_foldl_fst s e (gridCells grid) (none, none)]
    cases hf : (gridCells grid).reverse.find? (fun c => c.2.2 == s) <;> simp [hf]
  · rw [resolve_foldl_snd s e hne (gridCells grid) (none, none)]
    cases hf : (gridCells grid).reverse.find? (fun c => c.2.2 == e) <;> simp [hf]

/-! ## Claim theorems about the resolution scan -/

/-- C4: if the start label or the end label matches no cell of the grid,
`find_all_shortest_paths` returns the empty collection (a normal return
value; the embedded function is total). -/
theorem c4_absent_label_empty_result (grid : Grid) (start_number end_number : Int)
    (h : labelAbsent grid start_number ∨ labelAbsent grid end_number) :
    find_all_shortest_paths grid start_number end_number = [] := by
  unfold find_all_shortest_paths
  rcases hr : resolvePositions grid start_number end_number with ⟨o1, o2⟩
  rcases h with h | h
  · have h1 : o1 = none := by
      have := resolve_foldl_fst_absent start_number end_number (gridCells grid)
        (none, none) h
      rw [show (gridCells grid).foldl (resolveStep start_number end_number)
            (none, none) = (o1, o2) from hr] at this
      exact this
    subst h1
    cases o2 <;> rfl
  · have h2 : o2 = none := by
      have := resolve_foldl_snd_absent start_number end_number (gridCells grid)
        (none, none) h
      rw [show (gridCells grid).foldl (resolveStep start_number end_number)
            (none, none) = (o1, o2) from hr] at this
      exact this
    subst h2
    cases o1 <;> rfl

/-- C4 witness: label 2 is absent from `[[1]]` and the result is empty. -/
theorem c4_witness :
    labelAbsent [[1]] 2 ∧ find_all_shortest_paths [[1]] 1 2 = [] := by
  have habs : labelAbsent [[1]] 2 := by
    intro cell hc
    simp only [gridCells, gridCellsFrom, rowCells, List.append_nil, List.mem_singleton] at hc
    subst hc
    decide
  exact ⟨habs, c4_absent_label_empty_result [[1]] 1 2 (Or.inr habs)⟩

/-- C5 amended: when the two labels differ, the resolution step of
`find_all_shortest_paths` resolves each label to its LAST occurrence in
row-major scan order (not the first), silently and without any uniqueness
check. -/
theorem c5_amended_last_occurrence (grid : Grid) (start_number end_number : Int)
    (hne : start_number ≠ end_number) :
    (resolvePositions grid start_number end_number).1 = locateLast grid start_number ∧
    (resolvePositions grid start_number end_number).2 = locateLast grid end_number := by
  rw [resolvePositions_eq_locateLast grid start_number end_number hne]
  exact ⟨rfl, rfl⟩

/-- C5 amended witness: on `[[1,1,9]]` with labels 1 and 9, the resolution
is the last occurrence of each label. -/
theorem c5_amended_witness :
    (resolvePositions [[1, 1, 9]] 1 9).1 = locateLast [[1, 1, 9]] 1 ∧
    (resolvePositions [[1, 1, 9]] 1 9).2 = locateLast [[1, 1, 9]] 9 :=
  c5_amended_last_occurrence [[1, 1, 9]] 1 9 (by decide)

/-! ## Distance-map lemmas -/

theorem lookupD_insertD_self (m : List (Pos × Nat)) (k : Pos) (v : Nat) :
    lookupD (insertD m k v) k = some v := by
  induction m with
  | nil => simp [insertD, lookupD]
  | cons kv m ih =>
    by_cases h : kv.1 = k
    · simp [insertD, h, lookupD]
    · simp [insertD, h, lookupD, ih]

theorem lookupD_insertD_ne (m : List (Pos × Nat)) (k k' : Pos) (v : Nat) (h : k' ≠ k) :
    lookupD (insertD m k v) k' = lookupD m k' := by
  induction m with
  | nil =>
    simp only [insertD, lookupD]
    rw [if_neg (fun hh : k = k' => h hh.symm)]
  | cons kv m ih =>
    by_cases hk : kv.1 = k
    · have h2 : ¬ (k = k') := fun hh => h hh.symm
      have h3 : ¬ (kv.1 = k') := by rw [hk]; exact h2
      simp only [insertD, if_pos hk, lookupD, if_neg h2, if_neg h3]
    · simp only [insertD, if_neg hk, lookupD]
      by_cases hk' : kv.1 = k'
      · rw [if_pos hk', if_pos hk']
      · rw [if_neg hk', if_neg hk', ih]

theorem lookupD_isSome_of_mem {m : List (Pos × Nat)} {k : Pos}
    (h : k ∈ m.map Prod.fst) : (lookupD m k).isSome := by
  induction m with
  | nil => simp at h
  | cons kv m ih =>
    by_cases hk : kv.1 = k
    · simp [lookupD, hk]
    · simp only [List.map_cons, List.mem_cons] at h
      rcases h with h | h
      · exact absurd h.symm hk
      · simp only [lookupD, if_neg hk]
        exact ih h

theorem not_mem_keys_of_lookupD_none {m : List (Pos × Nat)} {k : Pos}
    (h : lookupD m k = none) : k ∉ m.map Prod.fst := by
  intro hmem
  have := lookupD_isSome_of_mem hmem
  rw [h] at this
  exact absurd this (by simp)

theorem insertD_keys_present (m : List (Pos × Nat)) (k : Pos) (v : Nat)
    (h : (lookupD m k).isSome) :
    (insertD m k v).map Prod.fst = m.map Prod.fst := by
  induction m with
  | nil => simp [lookupD] at h
  | cons kv m ih =>
    by_cases hk : kv.1 = k
    · simp [insertD, hk]
    · simp only [lookupD, if_neg hk] at h
      simp [insertD, hk, ih h]

theorem insertD_keys_absent (m : List (Pos × Nat)) (k : Pos) (v : Nat)
    (h : lookupD m k = none) :
    (insertD m k v).map Prod.fst = m.map Prod.fst ++ [k] := by
  induction m with
  | nil => simp [insertD]
  | cons kv m ih =>
    by_cases hk : kv.1 = k
    · simp [lookupD, hk] at h
    · simp only [lookupD, if_neg hk] at h
      simp [insertD, hk, ih h]

theorem insertD_length_present (m : List (Pos × Nat)) (k : Pos) (v : Nat)
    (h : (lookupD m k).isSome) : (insertD m k v).length = m.length := by
  have := insertD_keys_present m k v h
  have h1 : ((insertD m k v).map Prod.fst).length = (m.map Prod.fst).length := by rw [this]
  simpa using h1

theorem insertD_length_absent (m : List (Pos × Nat)) (k : Pos) (v : Nat)
    (h : lookupD m k = none) : (insertD m k v).length = m.length + 1 := by
  have := insertD_keys_absent m k v h
  have h1 : ((insertD m k v).map Prod.fst).length = (m.map Prod.fst ++ [k]).length := by rw [this]
  simpa using h1

theorem insertD_keys_nodup (m : List (Pos × Nat)) (k : Pos) (v : Nat)
    (hnd : (m.map Prod.fst).Nodup) : ((insertD m k v).map Prod.fst).Nodup := by
  cases h : lookupD m k with
  | none =>
    rw [insertD_keys_absent m k v h]
    have hk := not_mem_keys_of_lookupD_none h
    simp [List.nodup_append, hnd, hk]
  | some w =>
    rw [insertD_keys_present m k v (by simp [h])]
    exact hnd

theorem insertD_length_le (m : List (Pos × Nat)) (k : Pos) (v : Nat) :
    m.length ≤ (insertD m k v).length := by
  cases h : lookupD m k with
  | none => rw [insertD_length_absent m k v h]; omega
  | some w => rw [insertD_length_present m k v (by simp [h])]

/-! ## One-direction and expansion characterization -/

theorem childAt_some_bounds {rows cols : Nat} {p np : Pos} {d : Int × Int}
    (h : childAt rows cols p d = some np) : np.1 < rows ∧ np.2 < cols := by
  unfold childAt at h
  split at h
  · rename_i hb
    obtain ⟨h1, h2, h3, h4⟩ := hb
    rw [Option.some_inj] at h
    subst h
    refine ⟨by simp; omega, by simp; omega⟩
  · exact absurd h (by simp)

theorem tryDir_spec (rows cols : Nat) (cur : Pos) (path : List Char) (level : Nat)
    (d : Int × Int × Char) (s : St) :
    (tryDir rows cols cur path level d s = s ∧
      ∀ np, childAt rows cols cur (d.1, d.2.1) = some np →
        ∃ v, lookupD s.distance np = some v ∧ v ≠ level + 1) ∨
    (∃ np, childAt rows cols cur (d.1, d.2.1) = some np ∧
      (lookupD s.distance np = none ∨ lookupD s.distance np = some (level + 1)) ∧
      tryDir rows cols cur path level d s =
        { s with distance := insertD s.distance np (level + 1),
                 queue := s.queue ++ [(np, path ++ [d.2.2], level + 1)] }) := by
  cases hc : childAt rows cols cur (d.1, d.2.1) with
  | none =>
    refine Or.inl ⟨?_, fun np hnp => ?_⟩
    · unfold tryDir
      simp only [hc]
    · simp at hnp
  | some np =>
    cases hl : lookupD s.distance np with
    | none =>
      refine Or.inr ⟨np, rfl, Or.inl hl, ?_⟩
      unfold tryDir
      simp only [hc, hl]
    | some v =>
      by_cases hv : v = level + 1
      · subst hv
        refine Or.inr ⟨np, rfl, Or.inr hl, ?_⟩
        unfold tryDir
        simp only [hc, hl, if_true]
      · refine Or.inl ⟨?_, fun np' hnp' => ?_⟩
        · unfold tryDir
          simp only [hc, hl, if_neg hv]
        · obtain rfl := Option.some.inj hnp'
          exact ⟨v, hl, hv⟩

/-! ## Termination of the BFS loop -/

/-- Invariant used for the termination bound: keys of the distance map are
distinct and each lies in the rectangle or is the start, values are bounded
by the map size, and every queue entry's level is the recorded distance of
its position. -/
structure TermInv (rows cols : Nat) (start : Pos) (s : St) : Prop where
  keys_nodup : (s.distance.map Prod.fst).Nodup
  val_lt : ∀ k v, lookupD s.distance k = some v → v < s.distance.length
  key_ok : ∀ k v, lookupD s.distance k = some v → k = start ∨ (k.1 < rows ∧ k.2 < cols)
  queue_dist : ∀ e ∈ s.queue, lookupD s.distance e.1 = some e.2.2

theorem termInv_length_le {rows cols : Nat} {start : Pos} {s : St}
    (hinv : TermInv rows cols start s) : s.distance.length ≤ rows * cols + 1 := by
  have hsub : (s.distance.map Prod.fst).toFinset ⊆
      insert start (Finset.range rows ×ˢ Finset.range cols) := by
    intro k hk
    have hk' : k ∈ s.distance.map Prod.fst := List.mem_toFinset.mp hk
    have hsome := lookupD_isSome_of_mem hk'
    obtain ⟨v, hv⟩ := Option.isSome_iff_exists.mp hsome
    rcases hinv.key_ok k v hv with h | h
    · simp [h]
    · simp [Finset.mem_insert, Finset.mem_product, h.1, h.2]
  calc s.distance.length
      = (s.distance.map Prod.fst).length := by simp
    _ = (s.distance.map Prod.fst).toFinset.card :=
        (List.toFinset_card_of_nodup hinv.keys_nodup).symm
    _ ≤ (insert start (Finset.range rows ×ˢ Finset.range cols)).card :=
        Finset.card_le_card hsub
    _ ≤ (Finset.range rows ×ˢ Finset.range cols).card + 1 := Finset.card_insert_le _ _
    _ = rows * cols + 1 := by simp

/-- The decreasing measure: each queue entry of level `l` weighs `5 ^ (B - l)`. -/
def phi (B : Nat) (s : St) : Nat := (s.queue.map (fun e => 5 ^ (B - e.2.2))).sum

theorem sum_map_const_of_eq {α : Type} (f : α → Nat) (c : Nat) :
    ∀ (l : List α), (∀ e ∈ l, f e = c) → (l.map f).sum = l.length * c := by
  intro l
  induction l with
  | nil => simp
  | cons x t ih =>
    intro h
    have hx := h x (List.mem_cons_self x t)
    have ht := fun e he => h e (List.mem_cons_of_mem x he)
    simp [hx, ih ht, Nat.succ_mul, Nat.add_comm]

theorem termInv_push (rows cols : Nat) (start : Pos) (s : St) (np : Pos)
    (path : List Char) (level : Nat) (ch : Char)
    (hinv : TermInv rows cols start s)
    (hb : np.1 < rows ∧ np.2 < cols)
    (hl : lookupD s.distance np = none ∨ lookupD s.distance np = some (level + 1))
    (hlev : level < s.distance.length) :
    TermInv rows cols start
      { s with distance := insertD s.distance np (level + 1),
               queue := s.queue ++ [(np, path ++ [ch], level + 1)] } := by
  constructor
  · show ((insertD s.distance np (level + 1)).map Prod.fst).Nodup
    exact insertD_keys_nodup _ _ _ hinv.keys_nodup
  · intro k v
    show lookupD (insertD s.distance np (level + 1)) k = some v →
      v < (insertD s.distance np (level + 1)).length
    intro hkv
    have hlen := insertD_length_le s.distance np (level + 1)
    by_cases hknp : k = np
    · rw [hknp, lookupD_insertD_self] at hkv
      have hv := Option.some.inj hkv
      rcases hl with hl0 | hl1
      · rw [insertD_length_absent _ _ _ hl0]
        omega
      · have := hinv.val_lt np (level + 1) hl1
        omega
    · rw [lookupD_insertD_ne _ _ _ _ hknp] at hkv
      have := hinv.val_lt k v hkv
      omega
  · intro k v
    show lookupD (insertD s.distance np (level + 1)) k = some v →
      k = start ∨ (k.1 < rows ∧ k.2 < cols)
    intro hkv
    by_cases hknp : k = np
    · rw [hknp]
      exact Or.inr hb
    · rw [lookupD_insertD_ne _ _ _ _ hknp] at hkv
      exact hinv.key_ok k v hkv
  · intro e he
    show lookupD (insertD s.distance np (level + 1)) e.1 = some e.2.2
    replace he : e ∈ s.queue ++ [(np, path ++ [ch], level + 1)] := he
    rcases List.mem_append.mp he with he | he
    · have hed := hinv.queue_dist e he
      by_cases hknp : e.1 = np
      · rw [hknp] at hed ⊢
        rw [lookupD_insertD_self]
        rcases hl with hl0 | hl1
        · rw [hl0] at hed
          exact absurd hed (by simp)
        · rw [hl1] at hed
          have h2 := Option.some.inj hed
          rw [h2]
      · rw [lookupD_insertD_ne _ _ _ _ hknp]
        exact hed
    · simp only [List.mem_singleton] at he
      rw [he]
      exact lookupD_insertD_self _ _ _

theorem expandDirs_term (rows cols : Nat) (start cur : Pos) (path : List Char)
    (level : Nat) :
    ∀ (ds : List (Int × Int × Char)) (s : St),
    TermInv rows cols start s →
    level < s.distance.length →
    ∃ cs : List Entry,
      (expandDirs rows cols cur path level ds s).queue = s.queue ++ cs ∧
      cs.length ≤ ds.length ∧
      (∀ e ∈ cs, e.2.2 = level + 1) ∧
      TermInv rows cols start (expandDirs rows cols cur path level ds s) ∧
      s.distance.length ≤ (expandDirs rows cols cur path level ds s).distance.length := by
  intro ds
  induction ds with
  | nil =>
    intro s hinv hlev
    exact ⟨[], by simp [expandDirs], by simp, by simp, hinv, le_refl _⟩
  | cons d ds ih =>
    intro s hinv hlev
    rcases tryDir_spec rows cols cur path level d s with ⟨heq, _⟩ | ⟨np, hnp, hl, heq⟩
    · simp only [expandDirs, heq]
      obtain ⟨cs, h1, h2, h3, h4, h5⟩ := ih s hinv hlev
      exact ⟨cs, h1, Nat.le_succ_of_le h2, h3, h4, h5⟩
    · have hb := childAt_some_bounds hnp
      have hlen1 : s.distance.length ≤ (insertD s.distance np (level + 1)).length :=
        insertD_length_le _ _ _
      have hinv1 : TermInv rows cols start
          { s with distance := insertD s.distance np (level + 1),
                   queue := s.queue ++ [(np, path ++ [d.2.2], level + 1)] } :=
        termInv_push rows cols start s np path level d.2.2 hinv hb hl hlev
      obtain ⟨cs, h1, h2, h3, h4, h5⟩ := ih _ hinv1 (Nat.lt_of_lt_of_le hlev hlen1)
      refine ⟨(np, path ++ [d.2.2], level + 1) :: cs, ?_, ?_, ?_, ?_, ?_⟩
      · simp only [expandDirs, heq]
        rw [h1]
        simp
      · exact Nat.succ_le_succ h2
      · intro e he
        rcases List.mem_cons.mp he with he | he
        · rw [he]
        · exact h3 e he
      · simp only [expandDirs, heq]
        exact h4
      · simp only [expandDirs, heq]
        exact Nat.le_trans hlen1 h5

theorem termInv_set_result (rows cols : Nat) (start : Pos) (t : St)
    (X : List (List Char)) (Y : Option Nat) (hinv : TermInv rows cols start t) :
    TermInv rows cols start
      { t with shortest_paths := X, shortest_distance := Y } :=
  ⟨hinv.keys_nodup, hinv.val_lt, hinv.key_ok, hinv.queue_dist⟩

theorem bfsStep_term (rows cols : Nat) (start endp cur : Pos) (path : List Char)
    (level : Nat) (t : St)
    (hinv : TermInv rows cols start t)
    (hcur : lookupD t.distance cur = some level) :
    TermInv rows cols start (bfsStep rows cols endp cur path level t) ∧
    phi (rows * cols + 1) (bfsStep rows cols endp cur path level t) ≤
      phi (rows * cols + 1) t + 4 * 5 ^ (rows * cols + 1 - (level + 1)) := by
  have hlev : level < t.distance.length := hinv.val_lt cur level hcur
  unfold bfsStep
  split
  · exact ⟨hinv, by omega⟩
  · split
    · -- the dequeued position is the end: only the results change
      split
      · refine ⟨termInv_set_result rows cols start t [path] (some level) hinv, ?_⟩
        have hp : phi (rows * cols + 1)
            { t with shortest_paths := [path], shortest_distance := some level } =
            phi (rows * cols + 1) t := rfl
        omega
      · split
        · refine ⟨termInv_set_result rows cols start t [path] (some level) hinv, ?_⟩
          have hp : phi (rows * cols + 1)
              { t with shortest_paths := [path], shortest_distance := some level } =
              phi (rows * cols + 1) t := rfl
          omega
        · split
          · refine ⟨termInv_set_result rows cols start t (t.shortest_paths ++ [path])
              t.shortest_distance hinv, ?_⟩
            have hp : phi (rows * cols + 1)
                { t with shortest_paths := t.shortest_paths ++ [path] } =
                phi (rows * cols + 1) t := rfl
            omega
          · exact ⟨hinv, by omega⟩
    · -- expansion of the four directions
      obtain ⟨cs, h1, h2, h3, h4, h5⟩ :=
        expandDirs_term rows cols start cur path level dirList t hinv hlev
      refine ⟨h4, ?_⟩
      have hsum : phi (rows * cols + 1) (expandDirs rows cols cur path level dirList t) =
          phi (rows * cols + 1) t + cs.length * 5 ^ (rows * cols + 1 - (level + 1)) := by
        unfold phi
        rw [h1, List.map_append, List.sum_append]
        congr 1
        exact sum_map_const_of_eq _ _ cs (fun e he => by rw [h3 e he])
      have h24 : cs.length ≤ 4 := by
        have : dirList.length = 4 := rfl
        omega
      have hle : cs.length * 5 ^ (rows * cols + 1 - (level + 1)) ≤
          4 * 5 ^ (rows * cols + 1 - (level + 1)) :=
        Nat.mul_le_mul_right _ h24
      show phi (rows * cols + 1) (expandDirs rows cols cur path level dirList t) ≤ _
      omega

theorem bfsLoop_term (rows cols : Nat) (start endp : Pos) :
    ∀ (n : Nat) (s : St), TermInv rows cols start s → phi (rows * cols + 1) s ≤ n →
      (bfsLoop rows cols endp n s).queue = [] := by
  intro n
  induction n with
  | zero =>
    intro s hinv hphi
    cases hq : s.queue with
    | nil => exact hq
    | cons e rest =>
      exfalso
      have h1 : phi (rows * cols + 1) s =
          5 ^ (rows * cols + 1 - e.2.2) +
            (rest.map (fun e => 5 ^ (rows * cols + 1 - e.2.2))).sum := by
        simp [phi, hq]
      have h2 : 0 < 5 ^ (rows * cols + 1 - e.2.2) := pow_pos (by omega) _
      omega
  | succ n ih =>
    intro s hinv hphi
    cases hq : s.queue with
    | nil => rw [bfsLoop_queue_nil hq (n + 1), hq]
    | cons e rest =>
      obtain ⟨cur, pth, level⟩ := e
      have hstep : bfsLoop rows cols endp (n + 1) s =
          bfsLoop rows cols endp n
            (bfsStep rows cols endp cur pth level { s with queue := rest }) := by
        simp only [bfsLoop, hq]
      rw [hstep]
      have hhead : lookupD s.distance cur = some level :=
        hinv.queue_dist (cur, pth, level) (by rw [hq]; exact List.mem_cons_self _ _)
      have hlev : level < s.distance.length := hinv.val_lt cur level hhead
      have hlevB : level < rows * cols + 1 :=
        Nat.lt_of_lt_of_le hlev (termInv_length_le hinv)
      have hinv' : TermInv rows cols start { s with queue := rest } :=
        ⟨hinv.keys_nodup, hinv.val_lt, hinv.key_ok,
         fun e he => hinv.queue_dist e (by rw [hq]; exact List.mem_cons_of_mem _ he)⟩
      obtain ⟨hinv2, hphi2⟩ := bfsStep_term rows cols start endp cur pth level
        { s with queue := rest } hinv' hhead
      apply ih _ hinv2
      have hphi_s : phi (rows * cols + 1) s =
          5 ^ (rows * cols + 1 - level) + phi (rows * cols + 1) { s with queue := rest } := by
        simp [phi, hq]
      have hexp : rows * cols + 1 - level = (rows * cols + 1 - (level + 1)) + 1 := by omega
      have h5 : 5 ^ (rows * cols + 1 - level) = 5 ^ (rows * cols + 1 - (level + 1)) * 5 := by
        rw [hexp, pow_succ]
      have hpos : 0 < 5 ^ (rows * cols + 1 - (level + 1)) := pow_pos (by omega) _
      omega

theorem termInv_init (rows cols : Nat) (start : Pos) :
    TermInv rows cols start (bfsInit start) := by
  refine ⟨?_, ?_, ?_, ?_⟩
  · simp [bfsInit]
  · intro k v hkv
    replace hkv : (if start = k then some 0 else none) = some v := hkv
    by_cases h : start = k
    · rw [if_pos h] at hkv
      have := Option.some.inj hkv
      show v < 1
      omega
    · rw [if_neg h] at hkv
      exact absurd hkv (by simp)
  · intro k v hkv
    replace hkv : (if start = k then some 0 else none) = some v := hkv
    by_cases h : start = k
    · exact Or.inl h.symm
    · rw [if_neg h] at hkv
      exact absurd hkv (by simp)
  · intro e he
    replace he : e ∈ [((start, [], 0) : Entry)] := he
    simp only [List.mem_singleton] at he
    rw [he]
    show (if start = start then some 0 else none) = some 0
    rw [if_pos rfl]

theorem phi_init (B : Nat) (start : Pos) : phi B (bfsInit start) = 5 ^ B := by
  simp [phi, bfsInit]

/-- The fuel `5 ^ (rows * cols + 1)` always suffices: the loop's queue is
empty after `bfsFuel rows cols` iterations. -/
theorem bfs_loop_fuel_empties_queue (rows cols : Nat) (start endp : Pos) :
    (bfsLoop rows cols endp (bfsFuel rows cols) (bfsInit start)).queue = [] := by
  apply bfsLoop_term rows cols start endp (bfsFuel rows cols) (bfsInit start)
    (termInv_init rows cols start)
  rw [phi_init]
  exact le_refl _

/-- C8: for every finite grid and every start/end position, the BFS loop of
`find_all_shortest_paths` terminates: after finitely many iterations the
queue is exhausted, and running the loop any longer does not change the
state. -/
theorem c8_bfs_loop_terminates (grid : Grid) (start endp : Pos) :
    ∃ n : Nat,
      (bfsLoop grid.length (gridCols grid) endp n (bfsInit start)).queue = [] ∧
      ∀ m : Nat, n ≤ m →
        bfsLoop grid.length (gridCols grid) endp m (bfsInit start) =
        bfsLoop grid.length (gridCols grid) endp n (bfsInit start) := by
  refine ⟨bfsFuel grid.length (gridCols grid), ?_, ?_⟩
  · exact bfs_loop_fuel_empties_queue grid.length (gridCols grid) start endp
  · intro m hm
    exact bfsLoop_stable (bfs_loop_fuel_empties_queue grid.length (gridCols grid) start endp) hm

/-- C9: the BFS phase reads the grid only through its row count and the
length of its first row (taken as 0 for a grid with zero rows), never
indexing into grid cells, so its result is identical on any two grids with
the same dimensions — including empty and ragged grids; the embedded
function is total, so every input has a defined result. -/
theorem c9_bfs_reads_only_dimensions (g1 g2 : Grid) (start endp : Pos)
    (hrows : g1.length = g2.length) (hcols : gridCols g1 = gridCols g2) :
    bfs_shortest_paths g1 start endp = bfs_shortest_paths g2 start endp ∧
    gridCols ([] : Grid) = 0 := by
  refine ⟨?_, rfl⟩
  unfold bfs_shortest_paths
  rw [hrows, hcols]

/-- C9 witness: a ragged grid and a rectangular grid with the same row count
and first-row length give the same BFS result. -/
theorem c9_witness :
    bfs_shortest_paths [[1, 2], [3]] (0, 0) (1, 1) =
      bfs_shortest_paths [[1, 2], [3, 4]] (0, 0) (1, 1) ∧
    gridCols ([] : Grid) = 0 :=
  c9_bfs_reads_only_dimensions [[1, 2], [3]] [[1, 2], [3, 4]] (0, 0) (1, 1) rfl rfl

/-! ## Geometry of the grid -/

theorem manhattan_eq_zero {p q : Pos} : manhattan p q = 0 ↔ p = q := by
  constructor
  · intro h
    simp only [manhattan] at h
    have h1 : p.1 = q.1 := by omega
    have h2 : p.2 = q.2 := by omega
    exact Prod.ext h1 h2
  · intro h
    subst h
    simp [manhattan]

theorem childAt_some_coords {rows cols : Nat} {p q : Pos} {d : Int × Int}
    (hd : childAt rows cols p d = some q) :
    (q.1 : Int) = (p.1 : Int) + d.1 ∧ (q.2 : Int) = (p.2 : Int) + d.2 ∧
    q.1 < rows ∧ q.2 < cols := by
  unfold childAt at hd
  split at hd
  · rename_i hb
    obtain ⟨h1, h2, h3, h4⟩ := hb
    rw [Option.some_inj] at hd
    subst hd
    refine ⟨by simp; omega, by simp; omega, by simp; omega, by simp; omega⟩
  · simp at hd

theorem childAt_eq_some {rows cols : Nat} {p q : Pos} {d : Int × Int}
    (h1 : (q.1 : Int) = (p.1 : Int) + d.1) (h2 : (q.2 : Int) = (p.2 : Int) + d.2)
    (h3 : q.1 < rows) (h4 : q.2 < cols) :
    childAt rows cols p d = some q := by
  unfold childAt
  rw [if_pos ⟨by omega, by omega, by omega, by omega⟩, Option.some_inj]
  refine Prod.ext ?_ ?_ <;> simp <;> omega

theorem walkZ_append (p : Pos) (l : List Char) (c : Char) :
    walkZ p (l ++ [c]) =
      ((walkZ p l).1 + (moveDelta c).1, (walkZ p l).2 + (moveDelta c).2) := by
  simp [walkZ, List.foldl_append]

/-- The four direction characters. -/
def isDirChar (c : Char) : Prop := c = '>' ∨ c = 'v' ∨ c = '<' ∨ c = '^'

instance (c : Char) : Decidable (isDirChar c) := by
  unfold isDirChar
  infer_instance

/-- A geodesic predecessor: every rectangle cell other than the start has an
in-bounds neighbour one step closer to the start, provided the start's row is
in range and its column is at most the width. -/
theorem pred_exists (rows cols : Nat) (start q : Pos)
    (hsr : start.1 < rows) (hsc : start.2 ≤ cols)
    (hq1 : q.1 < rows) (hq2 : q.2 < cols) (hne : q ≠ start) :
    ∃ r : Pos, manhattan start r + 1 = manhattan start q ∧
      (r = start ∨ (r.1 < rows ∧ r.2 < cols)) ∧
      ∃ d ∈ dirList, childAt rows cols r (d.1, d.2.1) = some q := by
  by_cases hr1 : start.1 < q.1
  · refine ⟨(q.1 - 1, q.2), by simp [manhattan]; omega, Or.inr ⟨by omega, hq2⟩,
      (1, 0, 'v'), by simp [dirList], ?_⟩
    exact childAt_eq_some (by simp <;> omega) (by simp) hq1 hq2
  · by_cases hr2 : q.1 < start.1
    · refine ⟨(q.1 + 1, q.2), by simp [manhattan]; omega, Or.inr ⟨by omega, hq2⟩,
        (-1, 0, '^'), by simp [dirList], ?_⟩
      exact childAt_eq_some (by simp <;> omega) (by simp) hq1 hq2
    · have hr : q.1 = start.1 := by omega
      by_cases hc1 : start.2 < q.2
      · refine ⟨(q.1, q.2 - 1), by simp [manhattan]; omega, Or.inr ⟨hq1, by omega⟩,
          (0, 1, '>'), by simp [dirList], ?_⟩
        exact childAt_eq_some (by simp) (by simp <;> omega) hq1 hq2
      · have hc2 : q.2 < start.2 := by
          rcases Nat.lt_trichotomy q.2 start.2 with h | h | h
          · exact h
          · exact absurd (Prod.ext hr h) hne
          · exact absurd h (by omega)
        by_cases hcc : q.2 + 1 < cols
        · refine ⟨(q.1, q.2 + 1), by simp [manhattan]; omega, Or.inr ⟨hq1, hcc⟩,
            (0, -1, '<'), by simp [dirList], ?_⟩
          exact childAt_eq_some (by simp) (by simp <;> omega) hq1 hq2
        · -- q.2 + 1 = cols = start.2, so the predecessor is the start itself
          have hcol : q.2 + 1 = start.2 := by omega
          refine ⟨start, by simp [manhattan]; omega, Or.inl rfl,
            (0, -1, '<'), by simp [dirList], ?_⟩
          exact childAt_eq_some (by simp <;> omega) (by simp <;> omega) hq1 hq2

theorem exceeds_iff (sd : Option Nat) (l : Nat) :
    exceeds sd l = true ↔ ∃ dd, sd = some dd ∧ dd < l := by
  cases sd <;> simp [exceeds]

theorem expandDirs_spec (rows cols : Nat) (cur : Pos) (pth : List Char) (level : Nat) :
    ∀ (ds : List (Int × Int × Char)) (s : St),
    ∃ cs : List Entry,
      (expandDirs rows cols cur pth level ds s).queue = s.queue ++ cs ∧
      (∀ c ∈ cs, ∃ d ∈ ds, childAt rows cols cur (d.1, d.2.1) = some c.1 ∧
        c.2.1 = pth ++ [d.2.2] ∧ c.2.2 = level + 1 ∧
        (lookupD s.distance c.1 = none ∨ lookupD s.distance c.1 = some (level + 1))) ∧
      (expandDirs rows cols cur pth level ds s).shortest_paths = s.shortest_paths ∧
      (expandDirs rows cols cur pth level ds s).shortest_distance = s.shortest_distance ∧
      (∀ k v, lookupD s.distance k = some v →
        lookupD (expandDirs rows cols cur pth level ds s).distance k = some v) ∧
      (∀ k v, lookupD (expandDirs rows cols cur pth level ds s).distance k = some v →
        lookupD s.distance k = some v ∨ (v = level + 1 ∧ ∃ c ∈ cs, c.1 = k)) ∧
      (∀ d ∈ ds, ∀ q, childAt rows cols cur (d.1, d.2.1) = some q →
        (lookupD (expandDirs rows cols cur pth level ds s).distance q).isSome) := by
  intro ds
  induction ds with
  | nil =>
    intro s
    refine ⟨[], by simp [expandDirs], by simp, rfl, rfl, fun k v h => h,
      fun k v h => Or.inl h, by simp⟩
  | cons d ds ih =>
    intro s
    rcases tryDir_spec rows cols cur pth level d s with ⟨heq, hmiss⟩ | ⟨np, hnp, hl, heq⟩
    · obtain ⟨cs, h1, h2, h3, h4, h5, h6, h7⟩ := ih s
      refine ⟨cs, ?_, ?_, ?_, ?_, ?_, ?_, ?_⟩
      · simp only [expandDirs, heq]
        exact h1
      · intro c hc
        obtain ⟨d', hd', rest⟩ := h2 c hc
        exact ⟨d', List.mem_cons_of_mem d hd', rest⟩
      · simp only [expandDirs, heq]
        exact h3
      · simp only [expandDirs, heq]
        exact h4
      · simp only [expandDirs, heq]
        exact h5
      · simp only [expandDirs, heq]
        exact h6
      · intro d' hd' q hq
        rcases List.mem_cons.mp hd' with hd' | hd'
        · subst hd'
          obtain ⟨v, hv, _⟩ := hmiss q hq
          have := h5 q v hv
          simp only [expandDirs, heq]
          simp [this]
        · simp only [expandDirs, heq]
          exact h7 d' hd' q hq
    · -- this direction pushes the child np
      obtain ⟨cs2, h1, h2, h3, h4, h5, h6, h7⟩ := ih
        { s with distance := insertD s.distance np (level + 1),
                 queue := s.queue ++ [(np, pth ++ [d.2.2], level + 1)] }
      have hmono : ∀ k v, lookupD s.distance k = some v →
          lookupD (insertD s.distance np (level + 1)) k = some v := by
        intro k v hkv
        by_cases hknp : k = np
        · subst hknp
          rcases hl with hl0 | hl1
          · rw [hl0] at hkv
            exact absurd hkv (by simp)
          · rw [hl1] at hkv
            have := Option.some.inj hkv
            rw [lookupD_insertD_self, ← this]
        · rw [lookupD_insertD_ne _ _ _ _ hknp]
          exact hkv
      refine ⟨(np, pth ++ [d.2.2], level + 1) :: cs2, ?_, ?_, ?_, ?_, ?_, ?_, ?_⟩
      · simp only [expandDirs, heq]
        rw [h1]
        simp
      · intro c hc
        rcases List.mem_cons.mp hc with hc | hc
        · subst hc
          exact ⟨d, List.mem_cons_self d ds, hnp, rfl, rfl, hl⟩
        · obtain ⟨d', hd', hcd, hcp, hcl, hcond⟩ := h2 c hc
          refine ⟨d', List.mem_cons_of_mem d hd', hcd, hcp, hcl, ?_⟩
          replace hcond : lookupD (insertD s.distance np (level + 1)) c.1 = none ∨
              lookupD (insertD s.distance np (level + 1)) c.1 = some (level + 1) := hcond
          by_cases hknp : c.1 = np
          · rw [hknp]
            exact hl
          · rw [lookupD_insertD_ne _ _ _ _ hknp] at hcond
            exact hcond
      · simp only [expandDirs, heq]
        exact h3
      · simp only [expandDirs, heq]
        exact h4
      · intro k v hkv
        simp only [expandDirs, heq]
        exact h5 k v (hmono k v hkv)
      · intro k v hkv
        simp only [expandDirs, heq] at hkv
        rcases h6 k v hkv with h | ⟨hv, c, hc, hck⟩
        · replace h : lookupD (insertD s.distance np (level + 1)) k = some v := h
          by_cases hknp : k = np
          · rw [hknp, lookupD_insertD_self] at h
            have hv2 := (Option.some.inj h).symm
            exact Or.inr ⟨hv2, (np, pth ++ [d.2.2], level + 1), List.mem_cons_self _ _,
              hknp.symm⟩
          · rw [lookupD_insertD_ne _ _ _ _ hknp] at h
            exact Or.inl h
        · exact Or.inr ⟨hv, c, List.mem_cons_of_mem _ hc, hck⟩
      · intro d' hd' q hq
        rcases List.mem_cons.mp hd' with hd' | hd'
        · subst hd'
          obtain rfl := Option.some.inj (hnp.symm.trans hq)
          have hq2 : lookupD (insertD s.distance np (level + 1)) np = some (level + 1) :=
            lookupD_insertD_self _ _ _
          have := h5 np (level + 1) hq2
          simp only [expandDirs, heq]
          simp [this]
        · simp only [expandDirs, heq]
          exact h7 d' hd' q hq

theorem expandDirs_nodup (rows cols : Nat) (cur : Pos) (pth : List Char) (level : Nat) :
    ∀ (ds : List (Int × Int × Char)) (s : St),
    ((s.queue.map (fun e => e.2.1)).Nodup) →
    (∀ ch, ch ∈ ds.map (fun d => d.2.2) → ∀ e ∈ s.queue, e.2.1 ≠ pth ++ [ch]) →
    ((ds.map (fun d => d.2.2)).Nodup) →
    (((expandDirs rows cols cur pth level ds s).queue.map (fun e => e.2.1)).Nodup) := by
  intro ds
  induction ds with
  | nil =>
    intro s h1 _ _
    exact h1
  | cons d ds ih =>
    intro s h1 h2 h3
    rcases tryDir_spec rows cols cur pth level d s with ⟨heq, _⟩ | ⟨np, hnp, hl, heq⟩
    · simp only [expandDirs, heq]
      refine ih s h1 (fun ch hch e he => h2 ch (List.mem_cons_of_mem _ hch) e he) ?_
      simp only [List.map_cons, List.nodup_cons] at h3
      exact h3.2
    · simp only [expandDirs, heq]
      simp only [List.map_cons, List.nodup_cons] at h3
      apply ih
      · show ((s.queue ++ [(np, pth ++ [d.2.2], level + 1)]).map (fun e => e.2.1)).Nodup
        rw [List.map_append]
        simp only [List.map_cons, List.map_nil]
        rw [List.nodup_append]
        refine ⟨h1, List.nodup_singleton _, ?_⟩
        intro x hx
        simp only [List.mem_singleton]
        intro hxp
        obtain ⟨e, he, hex⟩ := List.mem_map.mp hx
        exact h2 d.2.2 (by simp) e he (hex.trans hxp)
      · intro ch hch e he
        replace he : e ∈ s.queue ++ [(np, pth ++ [d.2.2], level + 1)] := he
        rcases List.mem_append.mp he with he | he
        · exact h2 ch (List.mem_cons_of_mem _ hch) e he
        · simp only [List.mem_singleton] at he
          rw [he]
          intro hcontra
          replace hcontra : pth ++ [d.2.2] = pth ++ [ch] := hcontra
          have : d.2.2 = ch := by
            have := List.append_cancel_left hcontra
            simpa using this
          exact h3.1 (this ▸ hch)
      · exact h3.2

/-! ## The geodesic invariant of the BFS -/

/-- Per-entry invariant: the entry's path walks from the start to its
position, its length is its level, the path is a geodesic, and it uses only
direction characters. -/
structure EntryOk (start : Pos) (e : Entry) : Prop where
  walk_eq : walkZ start e.2.1 = posZ e.1
  len_eq : e.2.1.length = e.2.2
  geo : manhattan start e.1 = e.2.2
  chars : ∀ c ∈ e.2.1, isDirChar c

/-- The main invariant of the BFS loop, relative to a frontier level `L` and
a split of the queue into the level-`L` block `A` followed by the
level-`L+1` block `B`. -/
structure BfsInv (rows cols : Nat) (start endp : Pos) (L : Nat) (A B : List Entry)
    (s : St) : Prop where
  queue_eq : s.queue = A ++ B
  lvlA : ∀ e ∈ A, e.2.2 = L
  lvlB : ∀ e ∈ B, e.2.2 = L + 1
  entries : ∀ e ∈ s.queue, EntryOk start e
  dist_pos : ∀ p v, lookupD s.distance p = some v → p = start ∨ (p.1 < rows ∧ p.2 < cols)
  dist_geo : ∀ p v, lookupD s.distance p = some v → manhattan start p = v
  dist_le : ∀ p v, lookupD s.distance p = some v → v ≤ L + 1
  covered : ∀ p : Pos, p.1 < rows → p.2 < cols → manhattan start p ≤ L →
    (∀ dd, s.shortest_distance = some dd → manhattan start p ≤ dd) →
    (lookupD s.distance p).isSome
  next_cov : ∀ p : Pos, p.1 < rows → p.2 < cols → manhattan start p = L + 1 →
    (∀ dd, s.shortest_distance = some dd → L + 1 ≤ dd) →
    ((lookupD s.distance p).isSome ∨
      ∃ e ∈ A, ∃ d ∈ dirList, childAt rows cols e.1 (d.1, d.2.1) = some p)
  next_entry : ∀ p, lookupD s.distance p = some (L + 1) → ∃ e ∈ B, e.1 = p
  before_end : s.shortest_distance = none →
    (endp = start ∨ (endp.1 < rows ∧ endp.2 < cols)) →
    L ≤ manhattan start endp ∧
      (L = manhattan start endp → ∃ e ∈ A, e.1 = endp)
  sd_sp : s.shortest_paths = [] ↔ s.shortest_distance = none
  sd_geo : ∀ dd, s.shortest_distance = some dd → dd = manhattan start endp
  sd_le : ∀ dd, s.shortest_distance = some dd → dd ≤ L
  sp_ok : ∀ σ ∈ s.shortest_paths,
    walkZ start σ = posZ endp ∧ (∀ c ∈ σ, isDirChar c) ∧
    ∀ dd, s.shortest_distance = some dd → σ.length = dd
  nodupQ : (s.queue.map (fun e => e.2.1)).Nodup
  parentB : ∀ e ∈ B, e.2.1.dropLast ∉ A.map (fun e => e.2.1)
  sp_nodup : s.shortest_paths.Nodup
  sp_fresh : ∀ σ ∈ s.shortest_paths, ∀ e ∈ s.queue, σ ≠ e.2.1

/-! Branch equations for `bfsStep`. -/

theorem bfsStep_guard (t : St) {rows cols : Nat} {endp cur : Pos} {pth : List Char}
    {level : Nat} (h1 : t.shortest_paths ≠ []) (h2 : exceeds t.shortest_distance level = true) :
    bfsStep rows cols endp cur pth level t = t := by
  unfold bfsStep
  rw [if_pos ⟨h1, h2⟩]

theorem bfsStep_end_none (t : St) {rows cols : Nat} {endp cur : Pos} {pth : List Char}
    {level : Nat}
    (hg : ¬(t.shortest_paths ≠ [] ∧ exceeds t.shortest_distance level = true))
    (hce : cur = endp) (hsd : t.shortest_distance = none) :
    bfsStep rows cols endp cur pth level t =
      { t with shortest_paths := [pth], shortest_distance := some level } := by
  unfold bfsStep
  rw [if_neg hg, if_pos hce]
  simp only [hsd]

theorem bfsStep_end_lt (t : St) {rows cols : Nat} {endp cur : Pos} {pth : List Char}
    {level : Nat} {d : Nat}
    (hg : ¬(t.shortest_paths ≠ [] ∧ exceeds t.shortest_distance level = true))
    (hce : cur = endp) (hsd : t.shortest_distance = some d) (hlt : level < d) :
    bfsStep rows cols endp cur pth level t =
      { t with shortest_paths := [pth], shortest_distance := some level } := by
  unfold bfsStep
  rw [if_neg hg, if_pos hce]
  simp only [hsd]
  rw [if_pos hlt]

theorem bfsStep_end_eq (t : St) {rows cols : Nat} {endp cur : Pos} {pth : List Char}
    {level : Nat} {d : Nat}
    (hg : ¬(t.shortest_paths ≠ [] ∧ exceeds t.shortest_distance level = true))
    (hce : cur = endp) (hsd : t.shortest_distance = some d) (hnlt : ¬ level < d)
    (heq : level = d) :
    bfsStep rows cols endp cur pth level t =
      { t with shortest_paths := t.shortest_paths ++ [pth] } := by
  unfold bfsStep
  rw [if_neg hg, if_pos hce]
  simp only [hsd]
  rw [if_neg hnlt, if_pos heq]

theorem bfsStep_expand (t : St) {rows cols : Nat} {endp cur : Pos} {pth : List Char}
    {level : Nat}
    (hg : ¬(t.shortest_paths ≠ [] ∧ exceeds t.shortest_distance level = true))
    (hce : ¬ cur = endp) :
    bfsStep rows cols endp cur pth level t = expand rows cols cur pth level t := by
  unfold bfsStep
  rw [if_neg hg, if_neg hce]

/-! Renormalization: when the level-`L` block is exhausted, the invariant
holds at level `L + 1` with the former `B` block as the new `A` block. -/

theorem bfsInv_renorm (rows cols : Nat) (start endp : Pos)
    (hsr : start.1 < rows) (hsc : start.2 ≤ cols)
    {L : Nat} {B : List Entry} {s : St}
    (hinv : BfsInv rows cols start endp L [] B s) :
    BfsInv rows cols start endp (L + 1) B [] s := by
  obtain ⟨queue_eq, lvlA, lvlB, entries, dist_pos, dist_geo, dist_le, covered, next_cov,
    next_entry, before_end, sd_sp, sd_geo, sd_le, sp_ok, nodupQ, parentB, sp_nodup,
    sp_fresh⟩ := hinv
  refine ⟨?_, lvlB, ?_, entries, dist_pos, dist_geo, ?_, ?_, ?_, ?_, ?_, sd_sp, sd_geo,
    ?_, sp_ok, nodupQ, ?_, sp_nodup, sp_fresh⟩
  · simpa using queue_eq
  · intro e he
    exact absurd he (List.not_mem_nil e)
  · intro p v h
    exact Nat.le_succ_of_le (dist_le p v h)
  · -- covered at L + 1
    intro p hp1 hp2 hple hcap
    rcases Nat.lt_or_ge (manhattan start p) (L + 1) with h | h
    · exact covered p hp1 hp2 (by omega) hcap
    · have heq : manhattan start p = L + 1 := by omega
      rcases next_cov p hp1 hp2 heq (fun dd hdd => heq ▸ hcap dd hdd) with h2 | ⟨e, he, _⟩
      · exact h2
      · exact absurd he (List.not_mem_nil e)
  · -- next_cov at L + 1
    intro p hp1 hp2 hpeq hcap
    have hpne : p ≠ start := by
      intro hps
      rw [hps, manhattan_eq_zero.mpr rfl] at hpeq
      omega
    obtain ⟨r, hr1, hr2, dd0, hdd0, hch⟩ :=
      pred_exists rows cols start p hsr hsc hp1 hp2 hpne
    have hrne : r ≠ start := by
      intro hrs
      rw [hrs, manhattan_eq_zero.mpr rfl] at hr1
      omega
    rcases hr2 with hr2 | hr2
    · exact absurd hr2 hrne
    have hrman : manhattan start r = L + 1 := by omega
    have hrcap : ∀ d2, s.shortest_distance = some d2 → L + 1 ≤ d2 := by
      intro d2 hd2
      have := hcap d2 hd2
      omega
    rcases next_cov r hr2.1 hr2.2 hrman hrcap with hsome | ⟨e, he, _⟩
    · obtain ⟨v, hv⟩ := Option.isSome_iff_exists.mp hsome
      have hveq : v = L + 1 := by
        have := dist_geo r v hv
        omega
      rw [hveq] at hv
      obtain ⟨e, he, hep⟩ := next_entry r hv
      refine Or.inr ⟨e, he, dd0, hdd0, ?_⟩
      rw [hep]
      exact hch
    · exact absurd he (List.not_mem_nil e)
  · -- next_entry at L + 1: no recorded distance is L + 2 yet
    intro p hp
    have := dist_le p (L + 2) hp
    omega
  · -- before_end at L + 1
    intro hsd hv
    obtain ⟨hle, hpend⟩ := before_end hsd hv
    have hlt : L < manhattan start endp := by
      rcases Nat.lt_or_ge L (manhattan start endp) with h | h
      · exact h
      · have heq : L = manhattan start endp := by omega
        obtain ⟨e, he, _⟩ := hpend heq
        exact absurd he (List.not_mem_nil e)
    refine ⟨by omega, ?_⟩
    intro heq
    have hene : endp ≠ start := by
      intro h
      rw [h, manhattan_eq_zero.mpr rfl] at heq
      omega
    rcases hv with hv | hv
    · exact absurd hv hene
    have hcap : ∀ d2, s.shortest_distance = some d2 → L + 1 ≤ d2 := by
      intro d2 hd2
      rw [hsd] at hd2
      exact absurd hd2 (by simp)
    rcases next_cov endp hv.1 hv.2 (by omega) hcap with hsome | ⟨e, he, _⟩
    · obtain ⟨v, hvv⟩ := Option.isSome_iff_exists.mp hsome
      have hveq : v = L + 1 := by
        have := dist_geo endp v hvv
        omega
      rw [hveq] at hvv
      obtain ⟨e, he, hep⟩ := next_entry endp hvv
      exact ⟨e, he, hep⟩
    · exact absurd he (List.not_mem_nil e)
  · intro dd hdd
    exact Nat.le_succ_of_le (sd_le dd hdd)
  · intro e he
    exact absurd he (List.not_mem_nil e)

theorem bfsInv_step_core (rows cols : Nat) (start endp : Pos)
    {L : Nat} {A2 B : List Entry} {s : St} {cur : Pos} {pth : List Char} {level : Nat}
    {rest : List Entry}
    (hinv : BfsInv rows cols start endp L ((cur, pth, level) :: A2) B s)
    (hq : s.queue = (cur, pth, level) :: rest) :
    ∃ L' A' B', BfsInv rows cols start endp L' A' B'
      (bfsStep rows cols endp cur pth level { s with queue := rest }) := by
  have hhead_memA : ((cur, pth, level) : Entry) ∈ (cur, pth, level) :: A2 :=
    List.mem_cons_self _ _
  have hhead_memQ : ((cur, pth, level) : Entry) ∈ s.queue := by
    rw [hq]
    exact List.mem_cons_self _ _
  have hlev : level = L := hinv.lvlA _ hhead_memA
  have hhead := hinv.entries _ hhead_memQ
  have hgeo0 : manhattan start cur = level := hhead.geo
  have hwalk0 : walkZ start pth = posZ cur := hhead.walk_eq
  have hplen : pth.length = level := hhead.len_eq
  have hpchars : ∀ c ∈ pth, isDirChar c := hhead.chars
  have hrest : rest = A2 ++ B := by
    have h := hinv.queue_eq
    rw [hq] at h
    simpa using h
  have hndQ : (pth ∉ rest.map (fun e => e.2.1)) ∧ ((rest.map (fun e => e.2.1)).Nodup) := by
    have h := hinv.nodupQ
    rw [hq] at h
    simpa using h
  have hentR : ∀ e ∈ rest, EntryOk start e := by
    intro e he
    exact hinv.entries e (by rw [hq]; exact List.mem_cons_of_mem _ he)
  by_cases hg : s.shortest_paths ≠ [] ∧ exceeds s.shortest_distance level = true
  · -- the level exceeds the recorded best distance: the entry is skipped
    obtain ⟨hsp, hex⟩ := hg
    obtain ⟨dd0, hdd0, hdd0lt⟩ := (exceeds_iff _ _).mp hex
    have hdd0le : dd0 ≤ L := hinv.sd_le dd0 hdd0
    rw [bfsStep_guard ({ s with queue := rest }) hsp hex]
    refine ⟨L, A2, B, ?_⟩
    exact {
      queue_eq := hrest
      lvlA := fun e he => hinv.lvlA e (List.mem_cons_of_mem _ he)
      lvlB := hinv.lvlB
      entries := hentR
      dist_pos := hinv.dist_pos
      dist_geo := hinv.dist_geo
      dist_le := hinv.dist_le
      covered := hinv.covered
      next_cov := by
        intro p h1 h2 h3 hcap
        exact absurd (hcap dd0 hdd0) (by omega)
      next_entry := hinv.next_entry
      before_end := by
        intro h
        rw [h] at hdd0
        exact absurd hdd0 (by simp)
      sd_sp := hinv.sd_sp
      sd_geo := hinv.sd_geo
      sd_le := hinv.sd_le
      sp_ok := hinv.sp_ok
      nodupQ := hndQ.2
      parentB := by
        intro e he hmem
        exact hinv.parentB e he (List.mem_cons_of_mem _ hmem)
      sp_nodup := hinv.sp_nodup
      sp_fresh := fun σ hσ e he =>
        hinv.sp_fresh σ hσ e (by rw [hq]; exact List.mem_cons_of_mem _ he) }
  · by_cases hce : cur = endp
    · -- dequeued the end position
      by_cases hsdn : s.shortest_distance = none
      case pos =>
        have hsd := hsdn
        rw [bfsStep_end_none ({ s with queue := rest }) hg hce hsd]
        refine ⟨L, A2, B, ?_⟩
        exact {
          queue_eq := hrest
          lvlA := fun e he => hinv.lvlA e (List.mem_cons_of_mem _ he)
          lvlB := hinv.lvlB
          entries := hentR
          dist_pos := hinv.dist_pos
          dist_geo := hinv.dist_geo
          dist_le := hinv.dist_le
          covered := by
            intro p h1 h2 h3 hcap
            refine hinv.covered p h1 h2 h3 ?_
            intro dd hdd
            rw [hsd] at hdd
            exact absurd hdd (by simp)
          next_cov := by
            intro p h1 h2 h3 hcap
            exact absurd (hcap level rfl) (by omega)
          next_entry := hinv.next_entry
          before_end := by
            intro h
            exact absurd h (by simp)
          sd_sp := by
            constructor
            · intro h
              exact absurd h (by simp)
            · intro h
              exact absurd h (by simp)
          sd_geo := by
            intro dd hdd
            have h3 : level = dd := Option.some.inj hdd
            rw [hce] at hgeo0
            omega
          sd_le := by
            intro dd hdd
            have h3 : level = dd := Option.some.inj hdd
            omega
          sp_ok := by
            intro σ hσ
            replace hσ : σ ∈ [pth] := hσ
            simp only [List.mem_singleton] at hσ
            subst hσ
            refine ⟨?_, hpchars, ?_⟩
            · rw [hwalk0, hce]
            · intro dd hdd
              have h3 : level = dd := Option.some.inj hdd
              omega
          nodupQ := hndQ.2
          parentB := by
            intro e he hmem
            exact hinv.parentB e he (List.mem_cons_of_mem _ hmem)
          sp_nodup := List.nodup_singleton _
          sp_fresh := by
            intro σ hσ e he
            replace hσ : σ ∈ [pth] := hσ
            simp only [List.mem_singleton] at hσ
            subst hσ
            intro hcontra
            exact hndQ.1 (by rw [hcontra]; exact List.mem_map_of_mem _ he) }
      case neg =>
        obtain ⟨d, hsd⟩ : ∃ d, s.shortest_distance = some d :=
          Option.ne_none_iff_exists'.mp hsdn
        by_cases hlt : level < d
        · exfalso
          have h1 := hinv.sd_geo d hsd
          rw [hce] at hgeo0
          omega
        · by_cases heqd : level = d
          · rw [bfsStep_end_eq ({ s with queue := rest }) hg hce hsd hlt heqd]
            refine ⟨L, A2, B, ?_⟩
            exact {
              queue_eq := hrest
              lvlA := fun e he => hinv.lvlA e (List.mem_cons_of_mem _ he)
              lvlB := hinv.lvlB
              entries := hentR
              dist_pos := hinv.dist_pos
              dist_geo := hinv.dist_geo
              dist_le := hinv.dist_le
              covered := hinv.covered
              next_cov := by
                intro p h1 h2 h3 hcap
                exact absurd (hcap d hsd) (by omega)
              next_entry := hinv.next_entry
              before_end := by
                intro h
                rw [h] at hsd
                exact absurd hsd (by simp)
              sd_sp := by
                constructor
                · intro h
                  exact absurd h (by simp)
                · intro h
                  rw [h] at hsd
                  exact absurd hsd (by simp)
              sd_geo := hinv.sd_geo
              sd_le := hinv.sd_le
              sp_ok := by
                intro σ hσ
                replace hσ : σ ∈ s.shortest_paths ++ [pth] := hσ
                rcases List.mem_append.mp hσ with hσ | hσ
                · exact hinv.sp_ok σ hσ
                · simp only [List.mem_singleton] at hσ
                  subst hσ
                  refine ⟨?_, hpchars, ?_⟩
                  · rw [hwalk0, hce]
                  · intro dd hdd
                    rw [hsd] at hdd
                    have h3 : d = dd := Option.some.inj hdd
                    omega
              nodupQ := hndQ.2
              parentB := by
                intro e he hmem
                exact hinv.parentB e he (List.mem_cons_of_mem _ hmem)
              sp_nodup := by
                rw [List.nodup_append]
                refine ⟨hinv.sp_nodup, List.nodup_singleton _, ?_⟩
                intro x hx hx2
                simp only [List.mem_singleton] at hx2
                subst hx2
                exact hinv.sp_fresh x hx _ hhead_memQ rfl
              sp_fresh := by
                intro σ hσ e he
                replace hσ : σ ∈ s.shortest_paths ++ [pth] := hσ
                rcases List.mem_append.mp hσ with hσ | hσ
                · exact hinv.sp_fresh σ hσ e (by rw [hq]; exact List.mem_cons_of_mem _ he)
                · simp only [List.mem_singleton] at hσ
                  subst hσ
                  intro hcontra
                  exact hndQ.1 (by rw [hcontra]; exact List.mem_map_of_mem _ he) }
          · exfalso
            have hspne : s.shortest_paths ≠ [] := by
              intro hsp0
              have := hinv.sd_sp.mp hsp0
              rw [hsd] at this
              exact absurd this (by simp)
            have hnex : ¬ exceeds s.shortest_distance level = true := fun hex =>
              hg ⟨hspne, hex⟩
            rw [exceeds_iff] at hnex
            push_neg at hnex
            have := hnex d hsd
            omega
    · -- expansion of the four directions
      rw [bfsStep_expand ({ s with queue := rest }) hg hce]
      unfold expand
      obtain ⟨cs, f1, f2, f3, f4, f5, f6, f7⟩ :=
        expandDirs_spec rows cols cur pth level dirList { s with queue := rest }
      have hcapL : ∀ dd, s.shortest_distance = some dd → level ≤ dd := by
        intro dd hdd
        by_cases hsp0 : s.shortest_paths = []
        · have := hinv.sd_sp.mp hsp0
          rw [hdd] at this
          exact absurd this (by simp)
        · have hnex : ¬ exceeds s.shortest_distance level = true := fun hex =>
            hg ⟨hsp0, hex⟩
          rw [exceeds_iff] at hnex
          push_neg at hnex
          have := hnex dd hdd
          omega
      have key : ∀ c ∈ cs, manhattan start c.1 = level + 1 ∧
          (c.1.1 < rows ∧ c.1.2 < cols) ∧ walkZ start c.2.1 = posZ c.1 ∧
          c.2.1.length = level + 1 ∧ (∀ ch ∈ c.2.1, isDirChar ch) ∧
          c.2.1.dropLast = pth ∧ c.2.2 = level + 1 := by
        intro c hc
        obtain ⟨d, hd, hcd, hcp, hcl, hcond⟩ := f2 c hc
        have hco := childAt_some_coords hcd
        obtain ⟨hc1, hc2, hb1, hb2⟩ := hco
        have hd4 : d = ((0 : Int), (1 : Int), '>') ∨ d = ((1 : Int), (0 : Int), 'v') ∨
            d = ((0 : Int), (-1 : Int), '<') ∨ d = ((-1 : Int), (0 : Int), '^') := by
          simpa [dirList] using hd
        have hadj : manhattan start c.1 = level + 1 ∨ manhattan start c.1 + 1 = level := by
          rcases hd4 with rfl | rfl | rfl | rfl <;>
            (simp only [manhattan] at hgeo0 ⊢
             simp only at hc1 hc2
             omega)
        have hman : manhattan start c.1 = level + 1 := by
          rcases hadj with h | h
          · exact h
          · exfalso
            replace hcond : lookupD s.distance c.1 = none ∨
                lookupD s.distance c.1 = some (level + 1) := hcond
            rcases hcond with hcnone | hcsome
            · have hcap2 : ∀ dd, s.shortest_distance = some dd →
                  manhattan start c.1 ≤ dd := by
                intro dd hdd
                have := hcapL dd hdd
                omega
              have hcov := hinv.covered c.1 hb1 hb2 (by omega) hcap2
              rw [hcnone] at hcov
              simp at hcov
            · have := hinv.dist_geo c.1 (level + 1) hcsome
              omega
        refine ⟨hman, ⟨hb1, hb2⟩, ?_, ?_, ?_, ?_, hcl⟩
        · rw [hcp, walkZ_append, hwalk0]
          rcases hd4 with rfl | rfl | rfl | rfl <;>
            (simp only [moveDelta, posZ] at hc1 hc2 ⊢
             simp only [reduceIte]
             refine Prod.ext ?_ ?_ <;> simp <;> omega)
        · rw [hcp]
          simp [hplen]
        · intro ch hch2
          rw [hcp] at hch2
          rcases List.mem_append.mp hch2 with h | h
          · exact hpchars ch h
          · simp only [List.mem_singleton] at h
            subst h
            rcases hd4 with rfl | rfl | rfl | rfl <;> simp [isDirChar]
        · rw [hcp]
          exact List.dropLast_concat ..
      refine ⟨L, A2, B ++ cs, ?_⟩
      exact {
        queue_eq := by
          rw [f1]
          show rest ++ cs = A2 ++ (B ++ cs)
          rw [hrest, List.append_assoc]
        lvlA := fun e he => hinv.lvlA e (List.mem_cons_of_mem _ he)
        lvlB := by
          intro e he
          rcases List.mem_append.mp he with he | he
          · exact hinv.lvlB e he
          · obtain ⟨_, _, _, _, _, _, hlv⟩ := key e he
            omega
        entries := by
          intro e he
          rw [f1] at he
          replace he : e ∈ rest ++ cs := he
          rcases List.mem_append.mp he with he | he
          · exact hentR e he
          · obtain ⟨hman, hb, hw, hlen2, hch2, hdrop, hlv⟩ := key e he
            exact ⟨hw, by omega, by omega, hch2⟩
        dist_pos := by
          intro p v hp
          rcases f6 p v hp with h | ⟨hv, c, hc, hck⟩
          · exact hinv.dist_pos p v h
          · right
            rw [← hck]
            exact (key c hc).2.1
        dist_geo := by
          intro p v hp
          rcases f6 p v hp with h | ⟨hv, c, hc, hck⟩
          · exact hinv.dist_geo p v h
          · rw [← hck, hv]
            exact (key c hc).1
        dist_le := by
          intro p v hp
          rcases f6 p v hp with h | ⟨hv, c, hc, hck⟩
          · have := hinv.dist_le p v h
            omega
          · omega
        covered := by
          intro p h1 h2 h3 hcap
          have hc2 := hinv.covered p h1 h2 h3 (fun dd hdd => hcap dd (f4.trans hdd))
          obtain ⟨v, hv⟩ := Option.isSome_iff_exists.mp hc2
          have := f5 p v hv
          simp [this]
        next_cov := by
          intro p h1 h2 h3 hcap
          have hcap2 : ∀ dd, s.shortest_distance = some dd → L + 1 ≤ dd :=
            fun dd hdd => hcap dd (f4.trans hdd)
          rcases hinv.next_cov p h1 h2 h3 hcap2 with hsome | ⟨e, he, d, hd, hch⟩
          · obtain ⟨v, hv⟩ := Option.isSome_iff_exists.mp hsome
            have := f5 p v hv
            exact Or.inl (by simp [this])
          · rcases List.mem_cons.mp he with he | he
            · rw [he] at hch
              exact Or.inl (f7 d hd p hch)
            · exact Or.inr ⟨e, he, d, hd, hch⟩
        next_entry := by
          intro p hp
          rcases f6 p (L + 1) hp with h | ⟨hv, c, hc, hck⟩
          · obtain ⟨e, he, hep⟩ := hinv.next_entry p h
            exact ⟨e, List.mem_append.mpr (Or.inl he), hep⟩
          · exact ⟨c, List.mem_append.mpr (Or.inr hc), hck⟩
        before_end := by
          intro hsdn hv
          obtain ⟨hle, hpend⟩ := hinv.before_end (f4.symm.trans hsdn) hv
          refine ⟨hle, ?_⟩
          intro heq
          obtain ⟨e, he, hep⟩ := hpend heq
          rcases List.mem_cons.mp he with he | he
          · exfalso
            rw [he] at hep
            exact hce hep
          · exact ⟨e, he, hep⟩
        sd_sp := by
          rw [f3, f4]
          exact hinv.sd_sp
        sd_geo := fun dd hdd => hinv.sd_geo dd (f4.symm.trans hdd)
        sd_le := fun dd hdd => hinv.sd_le dd (f4.symm.trans hdd)
        sp_ok := by
          intro σ hσ
          rw [f3] at hσ
          obtain ⟨hw, hch2, hlen2⟩ := hinv.sp_ok σ hσ
          exact ⟨hw, hch2, fun dd hdd => hlen2 dd (f4.symm.trans hdd)⟩
        nodupQ := by
          have hfresh : ∀ ch, ch ∈ dirList.map (fun d => d.2.2) →
              ∀ e ∈ ({ s with queue := rest } : St).queue, e.2.1 ≠ pth ++ [ch] := by
            intro ch hch e he
            replace he : e ∈ rest := he
            rw [hrest] at he
            rcases List.mem_append.mp he with he | he
            · intro hcontra
              have hok := hentR e (by rw [hrest]; exact List.mem_append.mpr (Or.inl he))
              have hl1 : e.2.1.length = L := by
                rw [hok.len_eq]
                exact hinv.lvlA e (List.mem_cons_of_mem _ he)
              rw [hcontra] at hl1
              simp at hl1
              omega
            · intro hcontra
              apply hinv.parentB e he
              rw [hcontra, List.dropLast_concat]
              exact List.mem_map_of_mem _ hhead_memA
          exact expandDirs_nodup rows cols cur pth level dirList
            { s with queue := rest } hndQ.2 hfresh (by decide)
        parentB := by
          intro e he
          rcases List.mem_append.mp he with he | he
          · intro hmem
            exact hinv.parentB e he (List.mem_cons_of_mem _ hmem)
          · intro hmem
            obtain ⟨_, _, _, _, _, hdrop, _⟩ := key e he
            rw [hdrop] at hmem
            apply hndQ.1
            rw [hrest, List.map_append]
            exact List.mem_append.mpr (Or.inl hmem)
        sp_nodup := by
          rw [f3]
          exact hinv.sp_nodup
        sp_fresh := by
          intro σ hσ e he
          rw [f3] at hσ
          rw [f1] at he
          replace he : e ∈ rest ++ cs := he
          rcases List.mem_append.mp he with he | he
          · exact hinv.sp_fresh σ hσ e (by rw [hq]; exact List.mem_cons_of_mem _ he)
          · intro hcontra
            have hspne : s.shortest_paths ≠ [] := by
              intro h0
              rw [h0] at hσ
              simp at hσ
            have hsdne : s.shortest_distance ≠ none := fun h0 =>
              hspne (hinv.sd_sp.mpr h0)
            obtain ⟨dd, hdd⟩ := Option.ne_none_iff_exists'.mp hsdne
            have hσlen := (hinv.sp_ok σ hσ).2.2 dd hdd
            have hddle := hinv.sd_le dd hdd
            obtain ⟨_, _, _, hclen, _, _, _⟩ := key e he
            rw [hcontra] at hσlen
            omega }

theorem bfsInv_step (rows cols : Nat) (start endp : Pos)
    (hsr : start.1 < rows) (hsc : start.2 ≤ cols)
    {L : Nat} {A B : List Entry} {s : St}
    (hinv : BfsInv rows cols start endp L A B s)
    {cur : Pos} {pth : List Char} {level : Nat} {rest : List Entry}
    (hq : s.queue = (cur, pth, level) :: rest) :
    ∃ L' A' B', BfsInv rows cols start endp L' A' B'
      (bfsStep rows cols endp cur pth level { s with queue := rest }) := by
  by_cases hA : A = []
  · subst hA
    have hinv2 := bfsInv_renorm rows cols start endp hsr hsc hinv
    have hB : B = (cur, pth, level) :: rest := by
      have h := hinv2.queue_eq
      rw [hq] at h
      simpa using h.symm
    subst hB
    exact bfsInv_step_core rows cols start endp hinv2 hq
  · obtain ⟨a0, A2, hA0⟩ : ∃ a0 A2, A = a0 :: A2 := by
      cases A with
      | nil => exact absurd rfl hA
      | cons x xs => exact ⟨x, xs, rfl⟩
    subst hA0
    have ha0 : a0 = (cur, pth, level) := by
      have h := hinv.queue_eq
      rw [hq, List.cons_append, List.cons.injEq] at h
      exact h.1.symm
    subst ha0
    exact bfsInv_step_core rows cols start endp hinv hq

theorem bfsInv_init (rows cols : Nat) (start endp : Pos)
    (hsr : start.1 < rows) (hsc : start.2 ≤ cols) :
    BfsInv rows cols start endp 0 [(start, [], 0)] [] (bfsInit start) := by
  refine {
    queue_eq := rfl
    lvlA := ?_
    lvlB := ?_
    entries := ?_
    dist_pos := ?_
    dist_geo := ?_
    dist_le := ?_
    covered := ?_
    next_cov := ?_
    next_entry := ?_
    before_end := ?_
    sd_sp := by simp [bfsInit]
    sd_geo := ?_
    sd_le := ?_
    sp_ok := ?_
    nodupQ := by simp [bfsInit]
    parentB := ?_
    sp_nodup := by simp [bfsInit]
    sp_fresh := ?_ }
  · intro e he
    simp only [List.mem_singleton] at he
    rw [he]
  · intro e he
    exact absurd he (List.not_mem_nil e)
  · intro e he
    replace he : e ∈ [((start, [], 0) : Entry)] := he
    simp only [List.mem_singleton] at he
    rw [he]
    exact ⟨rfl, rfl, manhattan_eq_zero.mpr rfl, by simp⟩
  · intro p v hp
    replace hp : (if start = p then some 0 else none) = some v := hp
    by_cases h : start = p
    · exact Or.inl h.symm
    · rw [if_neg h] at hp
      exact absurd hp (by simp)
  · intro p v hp
    replace hp : (if start = p then some 0 else none) = some v := hp
    by_cases h : start = p
    · rw [if_pos h] at hp
      have hv := Option.some.inj hp
      rw [← h, manhattan_eq_zero.mpr rfl, hv]
    · rw [if_neg h] at hp
      exact absurd hp (by simp)
  · intro p v hp
    replace hp : (if start = p then some 0 else none) = some v := hp
    by_cases h : start = p
    · rw [if_pos h] at hp
      have hv := Option.some.inj hp
      omega
    · rw [if_neg h] at hp
      exact absurd hp (by simp)
  · intro p hp1 hp2 hple hcap
    have hps : p = start := (manhattan_eq_zero.mp (by omega)).symm
    subst hps
    show (if p = p then some 0 else none).isSome
    rw [if_pos rfl]
    rfl
  · intro p hp1 hp2 hpeq hcap
    have hpne : p ≠ start := by
      intro hps
      rw [hps, manhattan_eq_zero.mpr rfl] at hpeq
      omega
    obtain ⟨r, hr1, hr2, dd0, hdd0, hch⟩ :=
      pred_exists rows cols start p hsr hsc hp1 hp2 hpne
    have hrs : r = start := by
      have : manhattan start r = 0 := by omega
      exact (manhattan_eq_zero.mp this).symm
    refine Or.inr ⟨(start, [], 0), List.mem_singleton_self _, dd0, hdd0, ?_⟩
    show childAt rows cols start (dd0.1, dd0.2.1) = some p
    rw [← hrs]
    exact hch
  · intro p hp
    replace hp : (if start = p then some 0 else none) = some 1 := hp
    by_cases h : start = p
    · rw [if_pos h] at hp
      have := Option.some.inj hp
      omega
    · rw [if_neg h] at hp
      exact absurd hp (by simp)
  · intro hsd hv
    refine ⟨Nat.zero_le _, ?_⟩
    intro heq
    have : start = endp := manhattan_eq_zero.mp heq.symm
    exact ⟨(start, [], 0), List.mem_singleton_self _, this⟩
  · intro dd hdd
    replace hdd : (none : Option Nat) = some dd := hdd
    exact absurd hdd (by simp)
  · intro dd hdd
    replace hdd : (none : Option Nat) = some dd := hdd
    exact absurd hdd (by simp)
  · intro σ hσ
    replace hσ : σ ∈ ([] : List (List Char)) := hσ
    exact absurd hσ (List.not_mem_nil σ)
  · intro e he
    exact absurd he (List.not_mem_nil e)
  · intro σ hσ
    replace hσ : σ ∈ ([] : List (List Char)) := hσ
    exact absurd hσ (List.not_mem_nil σ)

theorem bfsInv_loop (rows cols : Nat) (start endp : Pos)
    (hsr : start.1 < rows) (hsc : start.2 ≤ cols) :
    ∀ (n : Nat) (s : St), (∃ L A B, BfsInv rows cols start endp L A B s) →
      ∃ L A B, BfsInv rows cols start endp L A B (bfsLoop rows cols endp n s) := by
  intro n
  induction n with
  | zero =>
    intro s h
    exact h
  | succ n ih =>
    intro s h
    cases hq : s.queue with
    | nil =>
      rw [bfsLoop_queue_nil hq]
      exact h
    | cons e rest =>
      obtain ⟨cur, pth, level⟩ := e
      have hstep : bfsLoop rows cols endp (n + 1) s =
          bfsLoop rows cols endp n
            (bfsStep rows cols endp cur pth level { s with queue := rest }) := by
        simp only [bfsLoop, hq]
      rw [hstep]
      obtain ⟨L, A, B, hinv⟩ := h
      exact ih _ (bfsInv_step rows cols start endp hsr hsc hinv hq)

/-- The key consequences of the invariant for any number of iterations:
every accumulated path walks from the start to the end, has length exactly
the Manhattan distance, uses only direction characters — and the accumulated
list has no duplicates. -/
theorem bfs_result_props (rows cols : Nat) (start endp : Pos)
    (hsr : start.1 < rows) (hsc : start.2 ≤ cols) (n : Nat) :
    (∀ σ ∈ (bfsLoop rows cols endp n (bfsInit start)).shortest_paths,
      walkZ start σ = posZ endp ∧ σ.length = manhattan start endp ∧
      ∀ c ∈ σ, isDirChar c) ∧
    ((bfsLoop rows cols endp n (bfsInit start)).shortest_paths).Nodup := by
  obtain ⟨L, A, B, hinv⟩ := bfsInv_loop rows cols start endp hsr hsc n (bfsInit start)
    ⟨0, [(start, [], 0)], [], bfsInv_init rows cols start endp hsr hsc⟩
  refine ⟨?_, hinv.sp_nodup⟩
  intro σ hσ
  obtain ⟨hw, hch, hlen⟩ := hinv.sp_ok σ hσ
  have hspne : (bfsLoop rows cols endp n (bfsInit start)).shortest_paths ≠ [] := by
    intro h0
    rw [h0] at hσ
    exact absurd hσ (List.not_mem_nil σ)
  have hsdne : (bfsLoop rows cols endp n (bfsInit start)).shortest_distance ≠ none :=
    fun h0 => hspne (hinv.sd_sp.mpr h0)
  obtain ⟨dd, hdd⟩ := Option.ne_none_iff_exists'.mp hsdne
  have h1 := hinv.sd_geo dd hdd
  have h2 := hlen dd hdd
  exact ⟨hw, by omega, hch⟩

/-- Instantiation for `bfs_shortest_paths`. -/
theorem bfs_shortest_paths_props (grid : Grid) (start endp : Pos)
    (hsr : start.1 < grid.length) (hsc : start.2 ≤ gridCols grid) :
    (∀ σ ∈ bfs_shortest_paths grid start endp,
      walkZ start σ = posZ endp ∧ σ.length = manhattan start endp ∧
      ∀ c ∈ σ, isDirChar c) ∧
    (bfs_shortest_paths grid start endp).Nodup := by
  unfold bfs_shortest_paths
  exact bfs_result_props grid.length (gridCols grid) start endp hsr hsc _

/-! ## Cells, resolution validity, and the out-of-rectangle start -/

theorem rowCells_mem {r : Nat} {vs : List Int} :
    ∀ {c : Nat} {x : Nat × Nat × Int}, x ∈ rowCells r c vs →
      x.1 = r ∧ c ≤ x.2.1 ∧ x.2.1 - c < vs.length := by
  induction vs with
  | nil =>
    intro c x h
    simp [rowCells] at h
  | cons v t ih =>
    intro c x h
    rw [rowCells] at h
    rcases List.mem_cons.mp h with h | h
    · subst h
      refine ⟨rfl, le_refl _, ?_⟩
      simp
    · obtain ⟨h1, h2, h3⟩ := ih h
      refine ⟨h1, by omega, by simp; omega⟩

theorem gridCellsFrom_mem {g : Grid} :
    ∀ {r : Nat} {x : Nat × Nat × Int}, x ∈ gridCellsFrom r g →
      ∃ row ∈ g, g.get? (x.1 - r) = some row ∧ r ≤ x.1 ∧ x.2.1 < row.length := by
  induction g with
  | nil =>
    intro r x h
    simp [gridCellsFrom] at h
  | cons row rest ih =>
    intro r x h
    rw [gridCellsFrom] at h
    rcases List.mem_append.mp h with h | h
    · obtain ⟨h1, h2, h3⟩ := rowCells_mem h
      refine ⟨row, List.mem_cons_self _ _, ?_, by omega, by omega⟩
      rw [h1]
      simp
    · obtain ⟨row2, hrow2, hg, hr, hlen⟩ := ih h
      refine ⟨row2, List.mem_cons_of_mem _ hrow2, ?_, by omega, hlen⟩
      have hx : x.1 - r = (x.1 - (r + 1)) + 1 := by omega
      rw [hx]
      simpa using hg

theorem mem_gridCells_bounds {grid : Grid} {x : Nat × Nat × Int}
    (h : x ∈ gridCells grid) :
    ∃ row ∈ grid, grid.get? x.1 = some row ∧ x.2.1 < row.length := by
  obtain ⟨row, hrow, hg, _, hlen⟩ := gridCellsFrom_mem h
  exact ⟨row, hrow, by simpa using hg, hlen⟩

theorem resolve_fst_valid (grid : Grid) (s e : Int) (ps : Pos)
    (h : (resolvePositions grid s e).1 = some ps) :
    ∃ row ∈ grid, grid.get? ps.1 = some row ∧ ps.2 < row.length := by
  unfold resolvePositions at h
  rw [resolve_foldl_fst] at h
  cases hf : (gridCells grid).reverse.find? (fun c => c.2.2 == s) with
  | none =>
    rw [hf] at h
    exact absurd h (by simp)
  | some cell =>
    rw [hf] at h
    have hcell : cell ∈ gridCells grid := by
      have := List.mem_of_find?_eq_some hf
      exact (List.mem_reverse).mp this
    obtain ⟨row, hrow, hg, hlen⟩ := mem_gridCells_bounds hcell
    have hps : ps = (cell.1, cell.2.1) := (Option.some.inj h).symm
    rw [hps]
    exact ⟨row, hrow, hg, hlen⟩

theorem resolve_foldl_snd_self (l : Int) (cs : List (Nat × Nat × Int)) :
    ∀ a : Option Pos × Option Pos, (cs.foldl (resolveStep l l) a).2 = a.2 := by
  induction cs with
  | nil =>
    intro a
    rfl
  | cons c t ih =>
    intro a
    rw [List.foldl_cons, ih]
    unfold resolveStep
    by_cases h : c.2.2 = l
    · rw [if_pos h]
    · rw [if_neg h, if_neg h]

theorem uniqueAt_locateLast (grid : Grid) (l : Int) (p : Pos) (h : uniqueAt grid l p) :
    locateLast grid l = some p := by
  replace h : (gridCells grid).filter (fun c => c.2.2 == l) = [(p.1, p.2, l)] := h
  unfold locateLast
  rw [find?_eq_head?_filter, List.filter_reverse, h]
  rfl

theorem uniqueAt_mem (grid : Grid) (l : Int) (p : Pos) (h : uniqueAt grid l p) :
    ((p.1, p.2, l) : Nat × Nat × Int) ∈ gridCells grid := by
  replace h : (gridCells grid).filter (fun c => c.2.2 == l) = [(p.1, p.2, l)] := h
  have h1 : ((p.1, p.2, l) : Nat × Nat × Int) ∈
      (gridCells grid).filter (fun c => c.2.2 == l) := by
    rw [h]
    exact List.mem_singleton_self _
  exact List.mem_of_mem_filter h1

theorem expandDirs_id_of_no_children (rows cols : Nat) (start : Pos) (pth : List Char)
    (lv : Nat) :
    ∀ (ds : List (Int × Int × Char)),
      (∀ d ∈ ds, childAt rows cols start (d.1, d.2.1) = none) →
      ∀ t : St, expandDirs rows cols start pth lv ds t = t := by
  intro ds
  induction ds with
  | nil =>
    intro _ t
    rfl
  | cons d ds ih =>
    intro h t
    rw [expandDirs]
    have hnone := h d (List.mem_cons_self _ _)
    have htd : tryDir rows cols start pth lv d t = t := by
      unfold tryDir
      simp only [hnone]
    rw [htd]
    exact ih (fun d2 hd2 => h d2 (List.mem_cons_of_mem _ hd2)) t

theorem bfs_far_start (rows cols : Nat) (start endp : Pos) (m : Nat)
    (hfar : cols < start.2) :
    (bfsLoop rows cols endp (m + 1) (bfsInit start)).shortest_paths = [] ∨
    (bfsLoop rows cols endp (m + 1) (bfsInit start)).shortest_paths = [[]] := by
  have hchild : ∀ d : Int × Int × Char, d ∈ dirList →
      childAt rows cols start (d.1, d.2.1) = none := by
    intro d hd
    have hd4 : d = ((0 : Int), (1 : Int), '>') ∨ d = ((1 : Int), (0 : Int), 'v') ∨
        d = ((0 : Int), (-1 : Int), '<') ∨ d = ((-1 : Int), (0 : Int), '^') := by
      simpa [dirList] using hd
    rcases hd4 with rfl | rfl | rfl | rfl <;>
      (unfold childAt
       split
       · rename_i hb
         exfalso
         obtain ⟨h1, h2, h3, h4⟩ := hb
         simp at h2 h4
         omega
       · rfl)
  have hloop1 : bfsLoop rows cols endp (m + 1) (bfsInit start) =
      bfsLoop rows cols endp m
        (bfsStep rows cols endp start [] 0 { bfsInit start with queue := [] }) := by
    simp only [bfsLoop, bfsInit]
  by_cases hse : start = endp
  · right
    rw [hloop1, bfsStep_end_none ({ bfsInit start with queue := [] })
      (fun hcon => hcon.1 rfl) hse rfl]
    rw [bfsLoop_queue_nil rfl]
  · left
    rw [hloop1, bfsStep_expand ({ bfsInit start with queue := [] })
      (fun hcon => hcon.1 rfl) hse]
    unfold expand
    rw [expandDirs_id_of_no_children rows cols start [] 0 dirList hchild]
    rw [bfsLoop_queue_nil rfl]
    rfl

/-! ## Character counting: geodesics never use opposing moves -/

def rowD (l : List Char) : Int := (l.count 'v' : Int) - (l.count '^' : Int)

def colD (l : List Char) : Int := (l.count '>' : Int) - (l.count '<' : Int)

theorem walkZ_eq_disp (p : Pos) (l : List Char) :
    walkZ p l = ((p.1 : Int) + rowD l, (p.2 : Int) + colD l) := by
  induction l using List.reverseRecOn with
  | nil =>
    simp [walkZ, posZ, rowD, colD]
  | append_singleton t c ih =>
    rw [walkZ_append, ih]
    by_cases h1 : c = '>'
    · subst h1
      refine Prod.ext ?_ ?_ <;>
        simp [rowD, colD, moveDelta, walkZ, List.count_append, List.count_cons] <;> ring
    by_cases h2 : c = 'v'
    · subst h2
      refine Prod.ext ?_ ?_ <;>
        simp [rowD, colD, moveDelta, walkZ, List.count_append, List.count_cons] <;> ring
    by_cases h3 : c = '<'
    · subst h3
      refine Prod.ext ?_ ?_ <;>
        simp [rowD, colD, moveDelta, walkZ, List.count_append, List.count_cons] <;> ring
    by_cases h4 : c = '^'
    · subst h4
      refine Prod.ext ?_ ?_ <;>
        simp [rowD, colD, moveDelta, walkZ, List.count_append, List.count_cons] <;> ring
    · refine Prod.ext ?_ ?_ <;>
        simp [rowD, colD, moveDelta, walkZ, List.count_append, List.count_cons,
          h1, h2, h3, h4]

theorem dir_counts_eq (l : List Char) (h : ∀ c ∈ l, isDirChar c) :
    l.count '>' + l.count '<' + l.count 'v' + l.count '^' = l.length := by
  induction l with
  | nil => simp
  | cons c t ih =>
    have hc : isDirChar c := h c (List.mem_cons_self c t)
    have iht := ih (fun x hx => h x (List.mem_cons_of_mem c hx))
    rcases hc with rfl | rfl | rfl | rfl <;>
      simp [List.count_cons] <;> omega

theorem geodesic_char_split (start endp : Pos) (σ : List Char)
    (hw : walkZ start σ = posZ endp) (hl : σ.length = manhattan start endp)
    (hch : ∀ c ∈ σ, isDirChar c) :
    (σ.count '>' = 0 ∨ σ.count '<' = 0) ∧ (σ.count 'v' = 0 ∨ σ.count '^' = 0) := by
  rw [walkZ_eq_disp] at hw
  have h1 := congrArg Prod.fst hw
  have h2 := congrArg Prod.snd hw
  simp [posZ] at h1 h2
  have hcount := dir_counts_eq σ hch
  unfold rowD at h1
  unfold colD at h2
  unfold manhattan at hl
  omega

theorem prefix_walk_inj (start : Pos) (σ : List Char)
    (hch : ∀ c ∈ σ, isDirChar c)
    (hs : (σ.count '>' = 0 ∨ σ.count '<' = 0) ∧ (σ.count 'v' = 0 ∨ σ.count '^' = 0)) :
    ∀ i j, i ≤ σ.length → j ≤ σ.length →
      walkZ start (σ.take i) = walkZ start (σ.take j) → i = j := by
  have key : ∀ k, k ≤ σ.length →
      (σ.take k).count '>' + (σ.take k).count '<' +
        (σ.take k).count 'v' + (σ.take k).count '^' = k ∧
      ((σ.take k).count '>' = 0 ∨ (σ.take k).count '<' = 0) ∧
      ((σ.take k).count 'v' = 0 ∨ (σ.take k).count '^' = 0) := by
    intro k hk
    have hsub : ∀ a : Char, (σ.take k).count a ≤ σ.count a := by
      intro a
      exact List.Sublist.count_le (List.take_sublist k σ) a
    refine ⟨?_, ?_, ?_⟩
    · have := dir_counts_eq (σ.take k)
        (fun c hc => hch c (List.take_subset k σ hc))
      rw [List.length_take] at this
      omega
    · rcases hs.1 with h | h
      · exact Or.inl (by have := hsub '>'; omega)
      · exact Or.inr (by have := hsub '<'; omega)
    · rcases hs.2 with h | h
      · exact Or.inl (by have := hsub 'v'; omega)
      · exact Or.inr (by have := hsub '^'; omega)
  intro i j hi hj hwij
  rw [walkZ_eq_disp, walkZ_eq_disp] at hwij
  have h1 := congrArg Prod.fst hwij
  have h2 := congrArg Prod.snd hwij
  simp only [add_right_inj] at h1 h2
  obtain ⟨ki1, ki2, ki3⟩ := key i hi
  obtain ⟨kj1, kj2, kj3⟩ := key j hj
  unfold rowD at h1
  unfold colD at h2
  omega

/-! ## Claims C3, C6, C10 -/

/-- C3: for every rectangular grid in which both labels occur exactly once,
every path in the result of `find_all_shortest_paths` has length equal to the
Manhattan distance between the two resolved positions (so all returned paths
share that same minimal length), and applying the path's moves sequentially
from the start position lands exactly on the end position. -/
theorem c3_geodesic_paths (grid : Grid) (start_number end_number : Int) (ps pe : Pos)
    (hrect : Rectangular grid)
    (hs : uniqueAt grid start_number ps) (he : uniqueAt grid end_number pe) :
    ∀ σ ∈ find_all_shortest_paths grid start_number end_number,
      σ.length = manhattan ps pe ∧ walkZ ps σ = posZ pe := by
  by_cases hne : start_number = end_number
  · -- with equal labels the end position never resolves and the result is empty
    intro σ hσ
    exfalso
    subst hne
    have h2 : (resolvePositions grid start_number start_number).2 = none := by
      unfold resolvePositions
      exact resolve_foldl_snd_self start_number (gridCells grid) (none, none)
    unfold find_all_shortest_paths at hσ
    rcases hr : resolvePositions grid start_number start_number with ⟨o1, o2⟩
    rw [hr] at hσ h2
    replace h2 : o2 = none := h2
    subst h2
    cases o1 <;> exact absurd hσ (List.not_mem_nil σ)
  · have hres : resolvePositions grid start_number end_number = (some ps, some pe) := by
      rw [resolvePositions_eq_locateLast grid _ _ hne,
        uniqueAt_locateLast grid _ ps hs, uniqueAt_locateLast grid _ pe he]
    intro σ hσ
    unfold find_all_shortest_paths at hσ
    rw [hres] at hσ
    replace hσ : σ ∈ bfs_shortest_paths grid ps pe := hσ
    obtain ⟨row, hrow, hget, hlen⟩ := mem_gridCells_bounds (uniqueAt_mem grid _ ps hs)
    obtain ⟨h1, -⟩ := List.get?_eq_some.mp hget
    have hlen2 : ps.2 < row.length := hlen
    have h2 : ps.2 ≤ gridCols grid := by
      have := hrect row hrow
      omega
    obtain ⟨hw, hl, -⟩ := (bfs_shortest_paths_props grid ps pe h1 h2).1 σ hσ
    exact ⟨hl, hw⟩

theorem c3_witness :
    Rectangular [[1, 2, 3], [4, 5, 6], [7, 8, 9]] ∧
    uniqueAt [[1, 2, 3], [4, 5, 6], [7, 8, 9]] 1 (0, 0) ∧
    uniqueAt [[1, 2, 3], [4, 5, 6], [7, 8, 9]] 9 (2, 2) ∧
    ∀ σ ∈ find_all_shortest_paths [[1, 2, 3], [4, 5, 6], [7, 8, 9]] 1 9,
      σ.length = manhattan (0, 0) (2, 2) ∧ walkZ (0, 0) σ = posZ (2, 2) := by
  have hr : Rectangular [[1, 2, 3], [4, 5, 6], [7, 8, 9]] := by
    unfold Rectangular gridCols
    decide
  have hs : uniqueAt [[1, 2, 3], [4, 5, 6], [7, 8, 9]] 1 (0, 0) := by
    unfold uniqueAt
    decide
  have he : uniqueAt [[1, 2, 3], [4, 5, 6], [7, 8, 9]] 9 (2, 2) := by
    unfold uniqueAt
    decide
  exact ⟨hr, hs, he, c3_geodesic_paths _ 1 9 (0, 0) (2, 2) hr hs he⟩

/-- C6: for every rectangular grid and every pair of labels, the collection
returned by `find_all_shortest_paths` contains no two identical path strings. -/
theorem c6_no_duplicates (grid : Grid) (start_number end_number : Int)
    (hrect : Rectangular grid) :
    (find_all_shortest_paths grid start_number end_number).Nodup := by
  unfold find_all_shortest_paths
  rcases hr : resolvePositions grid start_number end_number with ⟨o1, o2⟩
  cases o1 with
  | none => cases o2 <;> exact List.nodup_nil
  | some ps =>
    cases o2 with
    | none => exact List.nodup_nil
    | some pe =>
      show (bfs_shortest_paths grid ps pe).Nodup
      have hfst : (resolvePositions grid start_number end_number).1 = some ps := by
        rw [hr]
      obtain ⟨row, hrow, hget, hlen⟩ :=
        resolve_fst_valid grid start_number end_number ps hfst
      obtain ⟨h1, -⟩ := List.get?_eq_some.mp hget
      have h2 : ps.2 ≤ gridCols grid := by
        have := hrect row hrow
        omega
      exact (bfs_shortest_paths_props grid ps pe h1 h2).2

theorem c6_witness :
    Rectangular [[1, 2], [3, 4]] ∧
    (find_all_shortest_paths [[1, 2], [3, 4]] 1 4).Nodup := by
  have hr : Rectangular [[1, 2], [3, 4]] := by
    unfold Rectangular gridCols
    decide
  exact ⟨hr, c6_no_duplicates [[1, 2], [3, 4]] 1 4 hr⟩

/-- C10: every path returned by `find_all_shortest_paths` is simple: no
returned path string contains both `>` and `<`, nor both `v` and `^`, and the
walk the path induces from the resolved start position never visits the same
cell twice (distinct prefixes of the path reach distinct cells). -/
theorem c10_paths_simple (grid : Grid) (start_number end_number : Int) (ps : Pos)
    (σ : List Char)
    (hres : (resolvePositions grid start_number end_number).1 = some ps)
    (hσ : σ ∈ find_all_shortest_paths grid start_number end_number) :
    (¬('>' ∈ σ ∧ '<' ∈ σ) ∧ ¬('v' ∈ σ ∧ '^' ∈ σ)) ∧
    ∀ i j, i ≤ σ.length → j ≤ σ.length →
      walkZ ps (σ.take i) = walkZ ps (σ.take j) → i = j := by
  unfold find_all_shortest_paths at hσ
  rcases hr : resolvePositions grid start_number end_number with ⟨o1, o2⟩
  rw [hr] at hσ hres
  replace hres : o1 = some ps := hres
  subst hres
  cases o2 with
  | none => exact absurd hσ (List.not_mem_nil σ)
  | some pe =>
    replace hσ : σ ∈ bfs_shortest_paths grid ps pe := hσ
    obtain ⟨row, hrow, hget, hlen⟩ :=
      resolve_fst_valid grid start_number end_number ps (by rw [hr])
    obtain ⟨h1, -⟩ := List.get?_eq_some.mp hget
    by_cases h2 : ps.2 ≤ gridCols grid
    · obtain ⟨hw, hl, hch⟩ := (bfs_shortest_paths_props grid ps pe h1 h2).1 σ hσ
      have hsplit := geodesic_char_split ps pe σ hw hl hch
      refine ⟨⟨?_, ?_⟩, prefix_walk_inj ps σ hch hsplit⟩
      · rintro ⟨hm1, hm2⟩
        rcases hsplit.1 with h | h <;>
          exact absurd (List.count_eq_zero.mp h) (by simp [hm1, hm2])
      · rintro ⟨hm1, hm2⟩
        rcases hsplit.2 with h | h <;>
          exact absurd (List.count_eq_zero.mp h) (by simp [hm1, hm2])
    · -- the start column lies beyond the BFS width: the walk never expands
      have hm : ∃ m, bfsFuel grid.length (gridCols grid) = m + 1 := by
        have hpos : 0 < bfsFuel grid.length (gridCols grid) := by
          unfold bfsFuel
          exact pow_pos (by omega) _
        exact ⟨bfsFuel grid.length (gridCols grid) - 1, by omega⟩
      obtain ⟨m, hmfuel⟩ := hm
      have hσ2 : σ ∈ (bfsLoop grid.length (gridCols grid) pe (m + 1)
          (bfsInit ps)).shortest_paths := by
        replace hσ : σ ∈ (bfsLoop grid.length (gridCols grid) pe
            (bfsFuel grid.length (gridCols grid)) (bfsInit ps)).shortest_paths := hσ
        rw [hmfuel] at hσ
        exact hσ
      have hempty : σ = [] := by
        rcases bfs_far_start grid.length (gridCols grid) ps pe m (by omega) with h | h
        · rw [h] at hσ2
          exact absurd hσ2 (List.not_mem_nil σ)
        · rw [h] at hσ2
          simpa using hσ2
      subst hempty
      refine ⟨⟨?_, ?_⟩, ?_⟩
      · rintro ⟨hm1, -⟩
        exact absurd hm1 (List.not_mem_nil _)
      · rintro ⟨hm1, -⟩
        exact absurd hm1 (List.not_mem_nil _)
      · intro i j hi hj _
        simp at hi hj
        omega

theorem c10_witness :
    (resolvePositions [[1, 2]] 1 2).1 = some (0, 0) ∧
    ['>'] ∈ find_all_shortest_paths [[1, 2]] 1 2 ∧
    ((¬('>' ∈ ['>'] ∧ '<' ∈ ['>']) ∧ ¬('v' ∈ ['>'] ∧ '^' ∈ ['>'])) ∧
     ∀ i j, i ≤ List.length ['>'] → j ≤ List.length ['>'] →
       walkZ (0, 0) (List.take i ['>']) = walkZ (0, 0) (List.take j ['>']) → i = j) := by
  have h1 : (resolvePositions [[1, 2]] 1 2).1 = some (0, 0) := by decide
  have h2 : ['>'] ∈ find_all_shortest_paths [[1, 2]] 1 2 := by decide
  exact ⟨h1, h2, c10_paths_simple [[1, 2]] 1 2 (0, 0) ['>'] h1 h2⟩
